import Mathlib

/-!
Verification of the memoizing-cursor core of `ReusableGenerator` (src/index.ts).

A `ReusableGenerator<T>` instance owns
  * `results : IteratorResult<T>[]`   — the append-only memo of produced values,
  * `descriptors : WeakMap<IdObject, number>` — cursor identity ↦ next read index,
  * `gen : Iterator<T>`               — its own underlying generator, and
  * its primary id (used by `next()`).

`use()` / `rest()` build a fresh id, wrap `childGenerator(this, id)` in a new
instance, and (for `rest()`) register the id at `this.results.length`.  So the
live object graph is a tree of instances: the root wraps the user's producer,
every other node's generator is a pull adapter over its parent.  We embed that
graph as a `World`: the underlying producer (a state plus a step function) and
the list of nodes, where cursor identities are arena indices into each node's
offset table (faithful to the unforgeable object keys: fresh indices are never
reused) and `WeakMap.get(id) ?? 0` becomes an eagerly-allocated `0` entry,
which is observationally identical.
-/

namespace ReusableGen

/-- Result of one pull on an iterator: a value (`{value, done: false}`),
exhaustion (`{done: true}`), or a raised exception. -/
inductive PullResult (α : Type) where
  | val (a : α)
  | done
  | exn
  deriving DecidableEq, Repr

/-- One `ReusableGenerator` instance.  `src = none` means the node's generator
is the underlying producer held by the `World` (only the root is built this
way); `src = some (p, k)` means its generator is `childGenerator(parent p, id
k)`, and `genDone` records that this child generator has completed (a completed
JS generator answers `{done: true}` without re-entering its body).  `start` is
a ghost field used only by the specification: no operation reads it. -/
structure NodeData (α : Type) where
  results : List α
  offsets : List Nat
  src : Option (Nat × Nat)
  genDone : Bool
  start : Nat
  deriving DecidableEq, Repr

/-- The whole object graph reachable from one wrapped producer. -/
structure World (α : Type) (σ : Type) where
  prodNext : σ → PullResult α × σ
  prodState : σ
  nodes : List (NodeData α)

variable {α : Type} {σ : Type}

/-- Node lookup with a default for out-of-range indices (never hit by the
operations below, which create references only to existing nodes). -/
def nodeD (w : World α σ) (n : Nat) : NodeData α :=
  (w.nodes[n]?).getD ⟨[], [], none, false, 0⟩

def resultsAt (w : World α σ) (n : Nat) : List α := (nodeD w n).results

def offsetsAt (w : World α σ) (n : Nat) : List Nat := (nodeD w n).offsets

def srcAt (w : World α σ) (n : Nat) : Option (Nat × Nat) := (nodeD w n).src

def genDoneAt (w : World α σ) (n : Nat) : Bool := (nodeD w n).genDone

def startAt (w : World α σ) (n : Nat) : Nat := (nodeD w n).start

/-- `descriptors.get(id) ?? 0`. -/
def offAt (w : World α σ) (n id : Nat) : Nat := (offsetsAt w n).getD id 0

/-- Replace node `n`. -/
def wSet (w : World α σ) (n : Nat) (nd : NodeData α) : World α σ :=
  { w with nodes := w.nodes.set n nd }

/-- The successful-pull update of `request`:
`this.results.push(result); this.descriptors.set(id, idx + 1)`. -/
def pushVal (nd : NodeData α) (id idx : Nat) (a : α) : NodeData α :=
  { nd with results := nd.results ++ [a], offsets := nd.offsets.set id (idx + 1) }

/-- The cached-read update of `request`: `this.descriptors.set(id, idx + 1)`. -/
def bump (nd : NodeData α) (id idx : Nat) : NodeData α :=
  { nd with offsets := nd.offsets.set id (idx + 1) }

/-- Mark the node's child generator completed (a JS generator that returns or
propagates an exception is completed from then on). -/
def markDone (nd : NodeData α) : NodeData α :=
  { nd with genDone := true }

/-- `ReusableGenerator.request(id)` (src/index.ts lines 21–35), fuelled so the
recursion through the parent chain is structural.  `fuel = n + 1` always
suffices because every node's parent has a strictly smaller index (the guard
`p < n` is part of that bookkeeping and never fails on worlds built by the
operations below).  At the frontier (`results.length === idx`) the node pulls
its own generator once: the underlying producer for the root, one
`parent.request(k)` performed by `childGenerator` for a child node; a value is
pushed and the descriptor advanced, exhaustion is returned uncached, an
exception propagates with no state change beyond generator completion.
Otherwise the cached `results[idx]` is returned and the descriptor advanced. -/
def requestAux : Nat → World α σ → Nat → Nat → PullResult α × World α σ
  | 0, w, _, _ => (.done, w)
  | fuel + 1, w, n, id =>
    match w.nodes[n]? with
    | none => (.done, w)
    | some nd =>
      if nd.results.length = nd.offsets.getD id 0 then
        match nd.src with
        | none =>
          match w.prodNext w.prodState with
          | (.val a, s) =>
            (.val a, wSet { w with prodState := s } n (pushVal nd id (nd.offsets.getD id 0) a))
          | (.done, s) => (.done, { w with prodState := s })
          | (.exn, s) => (.exn, { w with prodState := s })
        | some (p, k) =>
          if nd.genDone then (.done, w)
          else if p < n then
            match requestAux fuel w p k with
            | (.val a, w1) => (.val a, wSet w1 n (pushVal nd id (nd.offsets.getD id 0) a))
            | (.done, w1) => (.done, wSet w1 n (markDone nd))
            | (.exn, w1) => (.exn, wSet w1 n (markDone nd))
          else (.done, w)
      else
        match nd.results[nd.offsets.getD id 0]? with
        | some a => (.val a, wSet w n (bump nd id (nd.offsets.getD id 0)))
        | none => (.done, w)

/-- One step of cursor `id` on node `n`. -/
def request (w : World α σ) (n id : Nat) : PullResult α × World α σ :=
  requestAux (n + 1) w n id

/-- `next()` on the handle of node `n`: step the node's primary cursor
(arena index `0`, the id passed to the constructor). -/
def next (w : World α σ) (n : Nat) : PullResult α × World α σ :=
  request w n 0

/-- `use()` on node `n`: allocate a fresh id (at the default offset `0`),
wrap `childGenerator(this, id)` in a brand-new instance, return its index. -/
def use (w : World α σ) (n : Nat) : World α σ × Nat :=
  match w.nodes[n]? with
  | none => (w, w.nodes.length)
  | some nd =>
    let k := nd.offsets.length
    ({ w with
        nodes := (w.nodes.set n { nd with offsets := nd.offsets ++ [0] }) ++
          [{ results := [], offsets := [0], src := some (n, k), genDone := false,
             start := nd.start }] },
      w.nodes.length)

/-- `rest()` on node `n`: like `use()` but the fresh id is registered at
`this.results.length` (src/index.ts line 54). -/
def rest (w : World α σ) (n : Nat) : World α σ × Nat :=
  match w.nodes[n]? with
  | none => (w, w.nodes.length)
  | some nd =>
    let k := nd.offsets.length
    ({ w with
        nodes := (w.nodes.set n { nd with offsets := nd.offsets ++ [nd.results.length] }) ++
          [{ results := [], offsets := [0], src := some (n, k), genDone := false,
             start := nd.start + nd.results.length }] },
      w.nodes.length)

/-- Outcome of `asNonEmpty()`: a handle, the `TypeError` for an empty
sequence, or a propagated producer exception. -/
inductive NEOut where
  | ok (m : Nat)
  | emptyError
  | raised
  deriving DecidableEq, Repr

/-- `asNonEmpty()` (src/index.ts lines 392–399): probe one step of a fresh
full cursor; throw on exhaustion, otherwise return another fresh full
cursor. -/
def asNonEmpty (w : World α σ) (n : Nat) : World α σ × NEOut :=
  let u := use w n
  let r := next u.1 u.2
  match r.1 with
  | .val _ => let u2 := use r.2 n; (u2.1, .ok u2.2)
  | .done => (r.2, .emptyError)
  | .exn => (r.2, .raised)

/-- The operations an external client can interleave on the graph. -/
inductive Op where
  | use (n : Nat)
  | rest (n : Nat)
  | step (n : Nat)
  deriving DecidableEq, Repr

/-- Run a trace of operations, recording `(node, result)` for every step. -/
def runOut (w : World α σ) : List Op → World α σ × List (Nat × PullResult α)
  | [] => (w, [])
  | Op.use n :: t => runOut (use w n).1 t
  | Op.rest n :: t => runOut (rest w n).1 t
  | Op.step n :: t =>
    let r := next w n
    let o := runOut r.2 t
    (o.1, (n, r.1) :: o.2)

/-- The values observed by the handle of node `m` along a trace. -/
def obs (w : World α σ) (t : List Op) (m : Nat) : List (PullResult α) :=
  ((runOut w t).2.filter fun x => x.1 == m).map Prod.snd

/-- How many times a trace steps the handle of node `m`. -/
def countSteps (t : List Op) (m : Nat) : Nat :=
  (t.filter fun op => op == Op.step m).length

/-- A generator built from a finite list, as produced by
`ReusableGenerator.from` / `create`: yields the elements in order and then
answers `{done: true}` on every further call. -/
def listNext : List α → PullResult α × List α
  | [] => (.done, [])
  | a :: l => (.val a, l)

/-- `reusable(generator of V)`: the root instance wrapping a list producer.
Its descriptor table holds the primary id at the default offset `0`. -/
def initWorld (V : List α) : World α (List α) :=
  { prodNext := listNext, prodState := V,
    nodes := [{ results := [], offsets := [0], src := none, genDone := false, start := 0 }] }

/-- A list producer instrumented with invocation counters: `calls` counts every
`gen.next()` call, `vals` only those that returned a value. -/
structure CState (α : Type) where
  remaining : List α
  calls : Nat
  vals : Nat
  deriving DecidableEq, Repr

/-- One pull on the instrumented producer. -/
def countNext : CState α → PullResult α × CState α
  | ⟨[], c, v⟩ => (.done, ⟨[], c + 1, v⟩)
  | ⟨a :: l, c, v⟩ => (.val a, ⟨l, c + 1, v + 1⟩)

/-- The root instance over the instrumented producer. -/
def countInit (V : List α) : World α (CState α) :=
  { prodNext := countNext, prodState := ⟨V, 0, 0⟩,
    nodes := [{ results := [], offsets := [0], src := none, genDone := false, start := 0 }] }

/-- A scripted producer: each pull returns the next scripted outcome (so it can
raise), and `{done: true}` once the script is spent. -/
def scriptNext : List (PullResult α) → PullResult α × List (PullResult α)
  | [] => (.done, [])
  | r :: l => (r, l)

/-- A root instance over an arbitrary scripted producer. -/
def scriptInit (script : List (PullResult α)) : World α (List (PullResult α)) :=
  { prodNext := scriptNext, prodState := script,
    nodes := [{ results := [], offsets := [0], src := none, genDone := false, start := 0 }] }

/-- The first `j` pull results of a producer. -/
def iterOut (f : σ → PullResult α × σ) : σ → Nat → List (PullResult α)
  | _, 0 => []
  | s, j + 1 => (f s).1 :: iterOut f (f s).2 j

/-- `Produces f s l`: pulling the producer from state `s` yields exactly the
elements of `l` in order and exhaustion ever after. -/
def Produces (f : σ → PullResult α × σ) (s : σ) (l : List α) : Prop :=
  ∀ j, iterOut f s j =
    (l.take j).map PullResult.val ++ List.replicate (j - l.length) PullResult.done

/-- State of the generator closure built by `scanWith` (src/index.ts lines
353–363): the running accumulator, the captured `src = this.use()` cursor
(a node of the receiver's world), and whether the closure has completed. -/
structure ScanSt (α : Type) (σ : Type) (R : Type) where
  acc : R
  inner : World α σ
  node : Nat
  finished : Bool

/-- One `next()` of the `scanWith` generator: pull `src` once; on a value fold
it into the accumulator and yield the accumulator, on exhaustion complete. -/
def scanNext (f : R → α → R) (s : ScanSt α σ R) : PullResult R × ScanSt α σ R :=
  if s.finished then (.done, s)
  else
    match next s.inner s.node with
    | (.val a, w') =>
      let acc' := f s.acc a
      (.val acc', ⟨acc', w', s.node, false⟩)
    | (.done, w') => (.done, ⟨s.acc, w', s.node, true⟩)
    | (.exn, w') => (.exn, ⟨s.acc, w', s.node, true⟩)

/-- `scanWith(scanner, init)`: take `src = this.use()`, build the scanning
generator over it, wrap it in a fresh instance. -/
def scanWith (w : World α σ) (n : Nat) (f : R → α → R) (init : R) :
    World R (ScanSt α σ R) :=
  let u := use w n
  { prodNext := scanNext f, prodState := ⟨init, u.1, u.2, false⟩,
    nodes := [{ results := [], offsets := [0], src := none, genDone := false, start := 0 }] }

/-- The list of running accumulations `[f init v1, f (f init v1) v2, …]`. -/
def scanAccs (f : R → α → R) (init : R) : List α → List R
  | [] => []
  | v :: vs => f init v :: scanAccs f (f init v) vs

/-- State of the generator closure built by `map` (src/index.ts lines
96–104). -/
structure MapSt (α : Type) (σ : Type) where
  inner : World α σ
  node : Nat
  finished : Bool

/-- One `next()` of the `map` generator. -/
def mapNext (g : α → β) (s : MapSt α σ) : PullResult β × MapSt α σ :=
  if s.finished then (.done, s)
  else
    match next s.inner s.node with
    | (.val a, w') => (.val (g a), ⟨w', s.node, false⟩)
    | (.done, w') => (.done, ⟨w', s.node, true⟩)
    | (.exn, w') => (.exn, ⟨w', s.node, true⟩)

/-- `map(transform)`: take `src = this.use()`, build the mapping generator
over it, wrap it in a fresh instance. -/
def mapGen (w : World α σ) (n : Nat) (g : α → β) : World β (MapSt α σ) :=
  let u := use w n
  { prodNext := mapNext g, prodState := ⟨u.1, u.2, false⟩,
    nodes := [{ results := [], offsets := [0], src := none, genDone := false, start := 0 }] }

/-! ### Basic accessor lemmas -/

theorem nodes_length_wSet (w : World α σ) (n : Nat) (nd : NodeData α) :
    (wSet w n nd).nodes.length = w.nodes.length :=
  List.length_set ..

theorem nodeD_wSet_self {w : World α σ} {n : Nat} {nd : NodeData α}
    (h : n < w.nodes.length) : nodeD (wSet w n nd) n = nd := by
  simp [nodeD, wSet, List.getElem?_set_self h]

theorem nodeD_wSet_ne {w : World α σ} {m n : Nat} {nd : NodeData α} (h : n ≠ m) :
    nodeD (wSet w n nd) m = nodeD w m := by
  simp [nodeD, wSet, List.getElem?_set_ne h]

theorem nodeD_prodSet (w : World α σ) (s : σ) (m : Nat) :
    nodeD { w with prodState := s } m = nodeD w m := rfl

theorem nodeD_eq_of_mem {w : World α σ} {n : Nat} {nd : NodeData α}
    (h : w.nodes[n]? = some nd) : nodeD w n = nd := by
  simp [nodeD, h]

theorem lt_length_of_mem {w : World α σ} {n : Nat} {nd : NodeData α}
    (h : w.nodes[n]? = some nd) : n < w.nodes.length :=
  (List.getElem?_eq_some.mp h).1

theorem nodes_getElem?_eq_some {w : World α σ} {n : Nat} (h : n < w.nodes.length) :
    w.nodes[n]? = some (nodeD w n) := by
  simp [nodeD, List.getElem?_eq_getElem h]

/-! ### `List.getD` bookkeeping -/

theorem getD_set_self {l : List Nat} {i v : Nat} (h : i < l.length) :
    (l.set i v).getD i 0 = v := by
  simp [List.getD_eq_getElem?_getD, List.getElem?_set_self h]

theorem getD_set_ne {l : List Nat} (i j v : Nat) (h : i ≠ j) :
    (l.set i v).getD j 0 = l.getD j 0 := by
  simp [List.getD_eq_getElem?_getD, List.getElem?_set_ne h]

theorem getD_append_lt {l l' : List Nat} {j : Nat} (h : j < l.length) :
    (l ++ l').getD j 0 = l.getD j 0 := by
  simp [List.getD_eq_getElem?_getD, List.getElem?_append, h]

theorem getD_append_length {l : List Nat} {v : Nat} :
    (l ++ [v]).getD l.length 0 = v := by
  simp [List.getD_eq_getElem?_getD, List.getElem?_concat_length]

theorem getD_of_length_le {l : List Nat} {j : Nat} (h : l.length ≤ j) :
    l.getD j 0 = 0 := by
  simp [List.getD_eq_getElem?_getD, List.getElem?_eq_none h]

theorem getD_append_zero (l : List Nat) (j : Nat) :
    (l ++ [0]).getD j 0 = l.getD j 0 := by
  rcases lt_trichotomy j l.length with h | h | h
  · exact getD_append_lt h
  · subst h
    rw [getD_append_length, getD_of_length_le le_rfl]
  · rw [getD_of_length_le (by simpa using h),
      getD_of_length_le (le_of_lt h)]

/-! ### Universal frame facts about `request` -/

/-- What any single `request` call can do to the graph, whatever the producer:
node count, sources, ghost starts and offset-table lengths are preserved, memo
lists only grow, and child-generator completion is monotone. -/
def FrameRel (w w' : World α σ) : Prop :=
  w'.nodes.length = w.nodes.length ∧
  w'.prodNext = w.prodNext ∧
  ∀ m, srcAt w' m = srcAt w m ∧ startAt w' m = startAt w m ∧
    (offsetsAt w' m).length = (offsetsAt w m).length ∧
    (∃ e, resultsAt w' m = resultsAt w m ++ e) ∧
    (genDoneAt w' m = genDoneAt w m ∨ genDoneAt w' m = true)

theorem frameRel_refl (w : World α σ) : FrameRel w w :=
  ⟨rfl, rfl, fun _ => ⟨rfl, rfl, rfl, ⟨[], by simp⟩, .inl rfl⟩⟩

theorem frameRel_trans {w w' w'' : World α σ} (h1 : FrameRel w w') (h2 : FrameRel w' w'') :
    FrameRel w w'' := by
  obtain ⟨l1, p1, f1⟩ := h1
  obtain ⟨l2, p2, f2⟩ := h2
  refine ⟨l2.trans l1, p2.trans p1, fun m => ?_⟩
  obtain ⟨s1, t1, o1, ⟨e1, r1⟩, d1⟩ := f1 m
  obtain ⟨s2, t2, o2, ⟨e2, r2⟩, d2⟩ := f2 m
  refine ⟨s2.trans s1, t2.trans t1, o2.trans o1, ⟨e1 ++ e2, by rw [r2, r1, List.append_assoc]⟩, ?_⟩
  rcases d2 with d2 | d2
  · rw [d2]; exact d1
  · exact .inr d2

theorem frameRel_prodSet (w : World α σ) (s : σ) : FrameRel w { w with prodState := s } :=
  ⟨rfl, rfl, fun m => ⟨rfl, rfl, rfl, ⟨[], (List.append_nil (resultsAt w m)).symm⟩, .inl rfl⟩⟩

theorem frameRel_wSet {w : World α σ} {n : Nat} {nd nd' : NodeData α}
    (hnd : w.nodes[n]? = some nd)
    (hsrc : nd'.src = nd.src) (hstart : nd'.start = nd.start)
    (hoff : nd'.offsets.length = nd.offsets.length)
    (hres : ∃ e, nd'.results = nd.results ++ e)
    (hdone : nd'.genDone = nd.genDone ∨ nd'.genDone = true) :
    FrameRel w (wSet w n nd') := by
  have hn : n < w.nodes.length := lt_length_of_mem hnd
  refine ⟨nodes_length_wSet .., rfl, fun m => ?_⟩
  by_cases hm : n = m
  · subst hm
    simp only [srcAt, startAt, offsetsAt, resultsAt, genDoneAt, nodeD_wSet_self hn,
      nodeD_eq_of_mem hnd]
    exact ⟨hsrc, hstart, hoff, hres, hdone⟩
  · refine ⟨?_, ?_, ?_, ⟨[], ?_⟩, .inl ?_⟩ <;>
      simp [srcAt, startAt, offsetsAt, resultsAt, genDoneAt, nodeD_wSet_ne hm]

theorem requestAux_nodeD_high {α σ} :
    ∀ (fuel : Nat) (w : World α σ) (n id m : Nat), n < m →
      nodeD (requestAux fuel w n id).2 m = nodeD w m := by
  intro fuel
  induction fuel with
  | zero => intro w n id m _; rfl
  | succ f ih =>
    intro w n id m hm
    have hne : n ≠ m := Nat.ne_of_lt hm
    simp only [requestAux]
    split
    · rfl
    · rename_i nd hnd
      split
      · split
        · split
          · rw [nodeD_wSet_ne hne]; rfl
          · rfl
          · rfl
        · rename_i p k hsrc
          split
          · rfl
          · split
            · rename_i hgd hpn
              split
              · rename_i a w1 heq
                rw [nodeD_wSet_ne hne]
                have h2 := ih w p k m (hpn.trans hm)
                rwa [heq] at h2
              · rename_i w1 heq
                rw [nodeD_wSet_ne hne]
                have h2 := ih w p k m (hpn.trans hm)
                rwa [heq] at h2
              · rename_i w1 heq
                rw [nodeD_wSet_ne hne]
                have h2 := ih w p k m (hpn.trans hm)
                rwa [heq] at h2
            · rfl
      · split
        · rw [nodeD_wSet_ne hne]
        · rfl

theorem requestAux_frame {α σ} :
    ∀ (fuel : Nat) (w : World α σ) (n id : Nat), FrameRel w (requestAux fuel w n id).2 := by
  intro fuel
  induction fuel with
  | zero => intro w n id; exact frameRel_refl w
  | succ f ih =>
    intro w n id
    simp only [requestAux]
    split
    · exact frameRel_refl w
    · rename_i nd hnd
      split
      · split
        · split
          · rename_i a s heq
            refine frameRel_trans (frameRel_prodSet w s) (frameRel_wSet hnd rfl rfl ?_ ?_ ?_)
            · simp [pushVal]
            · exact ⟨[a], rfl⟩
            · exact .inl rfl
          · rename_i s heq; exact frameRel_prodSet w s
          · rename_i s heq; exact frameRel_prodSet w s
        · rename_i p k hsrc
          split
          · exact frameRel_refl w
          · split
            · rename_i hgd hpn
              have hnd1 : ∀ w1 : World α σ, (requestAux f w p k).2 = w1 →
                  w1.nodes[n]? = some nd := by
                intro w1 hw1
                have hh : nodeD w1 n = nodeD w n := by
                  rw [← hw1]; exact requestAux_nodeD_high f w p k n hpn
                have hlen : w1.nodes.length = w.nodes.length := by
                  rw [← hw1]; exact (ih w p k).1
                have hn : n < w1.nodes.length := hlen ▸ lt_length_of_mem hnd
                rw [nodes_getElem?_eq_some hn, hh, nodeD_eq_of_mem hnd]
              split
              · rename_i a w1 heq
                have h1 : FrameRel w w1 := by have := ih w p k; rwa [heq] at this
                refine frameRel_trans h1 (frameRel_wSet (hnd1 w1 (by rw [heq])) rfl rfl ?_ ?_ ?_)
                · simp [pushVal]
                · exact ⟨[a], rfl⟩
                · exact .inl rfl
              · rename_i w1 heq
                have h1 : FrameRel w w1 := by have := ih w p k; rwa [heq] at this
                exact frameRel_trans h1
                  (frameRel_wSet (hnd1 w1 (by rw [heq])) rfl rfl rfl ⟨[], by simp [markDone]⟩ (.inr rfl))
              · rename_i w1 heq
                have h1 : FrameRel w w1 := by have := ih w p k; rwa [heq] at this
                exact frameRel_trans h1
                  (frameRel_wSet (hnd1 w1 (by rw [heq])) rfl rfl rfl ⟨[], by simp [markDone]⟩ (.inr rfl))
            · exact frameRel_refl w
      · split
        · refine frameRel_wSet hnd rfl rfl ?_ ⟨[], by simp [bump]⟩ (.inl rfl)
          simp [bump]
        · exact frameRel_refl w

theorem requestAux_congr {α σ} :
    ∀ (f1 : Nat) (f2 n : Nat) (w : World α σ) (id : Nat), n < f1 → n < f2 →
      requestAux f1 w n id = requestAux f2 w n id := by
  intro f1
  induction f1 with
  | zero => intro f2 n w id h1 _; omega
  | succ g1 ih =>
    intro f2 n w id h1 h2
    cases f2 with
    | zero => omega
    | succ g2 =>
      simp only [requestAux]
      split
      · rfl
      · rename_i nd hnd
        split
        · split
          · rfl
          · rename_i p k hsrc
            split
            · rfl
            · split
              · rename_i hgd hpn
                rw [ih g2 p w k (by omega) (by omega)]
              · rfl
        · rfl

theorem requestAux_eq_request {α σ} {fuel n : Nat} (w : World α σ) (id : Nat)
    (h : n < fuel) : requestAux fuel w n id = request w n id :=
  requestAux_congr fuel (n + 1) n w id h (Nat.lt_succ_self n)

theorem request_frame (w : World α σ) (n id : Nat) : FrameRel w (request w n id).2 :=
  requestAux_frame (n + 1) w n id

theorem request_nodeD_high {w : World α σ} {n m : Nat} (id : Nat) (h : n < m) :
    nodeD (request w n id).2 m = nodeD w m :=
  requestAux_nodeD_high (n + 1) w n id m h

/-! ### Producer semantics -/

theorem produces_fst {f : σ → PullResult α × σ} {st : σ} {l : List α}
    (h : Produces f st l) :
    (f st).1 = (match l with | [] => PullResult.done | a :: _ => PullResult.val a) := by
  have h1 := h 1
  cases l with
  | nil => simpa [iterOut, List.replicate_succ] using h1
  | cons a l' => simpa [iterOut] using h1

theorem produces_rest {f : σ → PullResult α × σ} {st : σ} {l : List α}
    (h : Produces f st l) : Produces f (f st).2 l.tail := by
  intro j
  have h1 := h (j + 1)
  cases l with
  | nil =>
    simp only [iterOut, List.take_nil, List.map_nil, List.nil_append, List.length_nil,
      Nat.sub_zero, List.replicate_succ] at h1
    injection h1 with hfst hrest
    simpa using hrest
  | cons a l' =>
    simp only [iterOut, List.take_succ_cons, List.map_cons, List.cons_append,
      List.length_cons, Nat.succ_sub_succ] at h1
    injection h1 with hfst hrest

theorem produces_val {f : σ → PullResult α × σ} {st : σ} {l : List α} {a : α} {s : σ}
    (h : Produces f st l) (heq : f st = (.val a, s)) :
    ∃ l', l = a :: l' ∧ Produces f s l' := by
  cases l with
  | nil =>
    have := produces_fst h
    rw [heq] at this
    exact absurd this (by simp)
  | cons b l' =>
    have hfst := produces_fst h
    rw [heq] at hfst
    have hab : a = b := by simpa using hfst
    subst hab
    have := produces_rest h
    rw [heq] at this
    exact ⟨l', rfl, this⟩

theorem produces_done {f : σ → PullResult α × σ} {st : σ} {l : List α} {s : σ}
    (h : Produces f st l) (heq : f st = (.done, s)) :
    l = [] ∧ Produces f s [] := by
  cases l with
  | nil =>
    have := produces_rest h
    rw [heq] at this
    exact ⟨rfl, this⟩
  | cons b l' =>
    have hfst := produces_fst h
    rw [heq] at hfst
    exact absurd hfst (by simp)

theorem produces_not_exn {f : σ → PullResult α × σ} {st : σ} {l : List α} {s : σ}
    (h : Produces f st l) (heq : f st = (.exn, s)) : False := by
  have hfst := produces_fst h
  rw [heq] at hfst
  cases l <;> simp at hfst

theorem listNext_produces (l : List α) : Produces listNext l l := by
  induction l with
  | nil =>
    intro j
    induction j with
    | zero => rfl
    | succ j ihj => simpa [iterOut, listNext, List.replicate_succ] using ihj
  | cons a l' ih =>
    intro j
    cases j with
    | zero => simp [iterOut]
    | succ j => simpa [iterOut, listNext] using ih j

theorem countNext_produces (l : List α) (c v : Nat) :
    Produces countNext (⟨l, c, v⟩ : CState α) l := by
  induction l generalizing c v with
  | nil =>
    intro j
    induction j generalizing c with
    | zero => rfl
    | succ j ihj => simpa [iterOut, countNext, List.replicate_succ] using ihj (c + 1)
  | cons a l' ih =>
    intro j
    cases j with
    | zero => simp [iterOut]
    | succ j => simpa [iterOut, countNext] using ih (c + 1) (v + 1) j

/-! ### Slice bookkeeping -/

theorem slice_len_le {V : List α} {s : Nat} {l : List α}
    (h : l = (V.drop s).take l.length) : s + l.length ≤ V.length ∨ l = [] := by
  rcases Nat.lt_or_ge s V.length with hs | hs
  · left
    have := congrArg List.length h
    simp [List.length_take, List.length_drop] at this
    omega
  · right
    rw [h, List.drop_eq_nil_of_le hs, List.take_nil]

theorem slice_elem {V : List α} {s : Nat} {l : List α}
    (h : l = (V.drop s).take l.length) {o : Nat} (ho : o < l.length) :
    s + o < V.length ∧ l[o]? = V[s + o]? := by
  have h1 : l[o]? = V[s + o]? := by
    conv_lhs => rw [h]
    rw [List.getElem?_take, if_pos ho, List.getElem?_drop]
  refine ⟨?_, h1⟩
  have h2 : V[s + o]? = some (l.get ⟨o, ho⟩) := by
    rw [← h1]
    exact List.getElem?_eq_getElem ho
  exact (List.getElem?_eq_some.mp h2).1

theorem slice_push {V : List α} {s : Nat} {l : List α}
    (h : l = (V.drop s).take l.length) {a : α}
    (ha : V[s + l.length]? = some a) :
    l ++ [a] = (V.drop s).take (l ++ [a]).length := by
  have hlen : (l ++ [a]).length = l.length + 1 := by simp
  rw [hlen, List.take_succ, ← h, List.getElem?_drop, ha]
  rfl

/-! ### Accessors after `wSet` -/

theorem resultsAt_wSet_self {w : World α σ} {n : Nat} {nd : NodeData α}
    (h : n < w.nodes.length) : resultsAt (wSet w n nd) n = nd.results := by
  rw [resultsAt, nodeD_wSet_self h]

theorem resultsAt_wSet_ne {w : World α σ} {m n : Nat} {nd : NodeData α} (h : n ≠ m) :
    resultsAt (wSet w n nd) m = resultsAt w m := by
  rw [resultsAt, nodeD_wSet_ne h, resultsAt]

theorem offsetsAt_wSet_self {w : World α σ} {n : Nat} {nd : NodeData α}
    (h : n < w.nodes.length) : offsetsAt (wSet w n nd) n = nd.offsets := by
  rw [offsetsAt, nodeD_wSet_self h]

theorem offsetsAt_wSet_ne {w : World α σ} {m n : Nat} {nd : NodeData α} (h : n ≠ m) :
    offsetsAt (wSet w n nd) m = offsetsAt w m := by
  rw [offsetsAt, nodeD_wSet_ne h, offsetsAt]

theorem srcAt_wSet_self {w : World α σ} {n : Nat} {nd : NodeData α}
    (h : n < w.nodes.length) : srcAt (wSet w n nd) n = nd.src := by
  rw [srcAt, nodeD_wSet_self h]

theorem srcAt_wSet_ne {w : World α σ} {m n : Nat} {nd : NodeData α} (h : n ≠ m) :
    srcAt (wSet w n nd) m = srcAt w m := by
  rw [srcAt, nodeD_wSet_ne h, srcAt]

theorem startAt_wSet_self {w : World α σ} {n : Nat} {nd : NodeData α}
    (h : n < w.nodes.length) : startAt (wSet w n nd) n = nd.start := by
  rw [startAt, nodeD_wSet_self h]

theorem startAt_wSet_ne {w : World α σ} {m n : Nat} {nd : NodeData α} (h : n ≠ m) :
    startAt (wSet w n nd) m = startAt w m := by
  rw [startAt, nodeD_wSet_ne h, startAt]

theorem genDoneAt_wSet_self {w : World α σ} {n : Nat} {nd : NodeData α}
    (h : n < w.nodes.length) : genDoneAt (wSet w n nd) n = nd.genDone := by
  rw [genDoneAt, nodeD_wSet_self h]

theorem genDoneAt_wSet_ne {w : World α σ} {m n : Nat} {nd : NodeData α} (h : n ≠ m) :
    genDoneAt (wSet w n nd) m = genDoneAt w m := by
  rw [genDoneAt, nodeD_wSet_ne h, genDoneAt]

/-! ### The reachability invariant -/

/-- Invariant of every graph reachable from a wrapped producer of the value
list `V`, stated relative to a pending cursor `x`.  With `x = none` it is the
plain invariant.  During the one moment inside a frontier `request` where the
parent-side descriptor of the issuing child has been advanced but the child has
not yet pushed the pulled value, the alignment equation of that one child is
off by exactly one: `x = some (p, k)` records that pending parent-side id. -/
structure InvC (V : List α) (w : World α σ) (x : Option (Nat × Nat)) : Prop where
  ne : 0 < w.nodes.length
  rootSrc : srcAt w 0 = none
  rootStart : startAt w 0 = 0
  prodOk : Produces w.prodNext w.prodState (V.drop (resultsAt w 0).length)
  srcOk : ∀ m, 0 < m → m < w.nodes.length →
    ∃ p k, srcAt w m = some (p, k) ∧ p < m ∧ 1 ≤ k ∧ k < (offsetsAt w p).length
  offsNe : ∀ n, n < w.nodes.length → 0 < (offsetsAt w n).length
  keyInj : ∀ m m', m < w.nodes.length → m' < w.nodes.length →
    srcAt w m ≠ none → srcAt w m = srcAt w m' → m = m'
  offLe : ∀ n id, n < w.nodes.length → offAt w n id ≤ (resultsAt w n).length
  slice : ∀ n, n < w.nodes.length →
    resultsAt w n = (V.drop (startAt w n)).take (resultsAt w n).length
  align : ∀ m p k, m < w.nodes.length → srcAt w m = some (p, k) →
    startAt w m + (resultsAt w m).length + (if x = some (p, k) then 1 else 0)
      = startAt w p + offAt w p k
  doneOk : ∀ m, m < w.nodes.length → genDoneAt w m = true →
    V.length ≤ startAt w m + (resultsAt w m).length

/-- The plain reachability invariant. -/
def Inv (V : List α) (w : World α σ) : Prop := InvC V w none

theorem srcAt_ne_zero {V : List α} {w : World α σ} {x : Option (Nat × Nat)}
    (h : InvC V w x) {c : Nat} (hc : srcAt w c ≠ none) : c ≠ 0 := by
  intro h0
  exact hc (h0 ▸ h.rootSrc)

theorem invC_of_no_child {V : List α} {w : World α σ} {n id : Nat}
    (h : InvC V w (some (n, id)))
    (hkey : ∀ c, c < w.nodes.length → srcAt w c ≠ some (n, id)) : Inv V w := by
  refine ⟨h.ne, h.rootSrc, h.rootStart, h.prodOk, h.srcOk, h.offsNe, h.keyInj, h.offLe,
    h.slice, ?_, h.doneOk⟩
  intro m p k hm hsrc
  have := h.align m p k hm hsrc
  rcases Decidable.eq_or_ne (p, k) (n, id) with hpk | hpk
  · exact absurd (hpk ▸ hsrc) (hkey m hm)
  · simpa [Ne.symm hpk] using this

theorem invC_zero_key {V : List α} {w : World α σ} {n : Nat}
    (h : InvC V w (some (n, 0))) : Inv V w := by
  refine invC_of_no_child h (fun c hc hsrc => ?_)
  have hc0 : c ≠ 0 := srcAt_ne_zero h (by simp [hsrc])
  obtain ⟨p, k, hpk, _, hk1, _⟩ := h.srcOk c (Nat.pos_of_ne_zero hc0) hc
  rw [hsrc] at hpk
  have : k = 0 := by
    have := hpk.symm
    simp only [Option.some.injEq, Prod.mk.injEq] at this
    exact this.2
  omega

/-! ### Full characterization of one `request` on a wrapped list -/

/-- Writing `pos` for the absolute position `startAt w n + offAt w n id` of
cursor `(n, id)`, a `request` returns `V[pos]` and advances exactly this
cursor (plus the internal parent chain) if `pos` is in range, and returns
exhaustion with no change to any memo list or descriptor otherwise. -/
def ReqPost (V : List α) (w : World α σ) (n id : Nat)
    (out : PullResult α × World α σ) : Prop :=
  (startAt w n + offAt w n id < V.length →
    (∃ a, V[startAt w n + offAt w n id]? = some a ∧ out.1 = .val a) ∧
    offAt out.2 n id = offAt w n id + 1 ∧
    (∀ m, genDoneAt out.2 m = genDoneAt w m) ∧
    (∀ m j, ¬(m = n ∧ j = id) → (∀ c, c < w.nodes.length → srcAt w c ≠ some (m, j)) →
      offAt out.2 m j = offAt w m j) ∧
    InvC V out.2 (some (n, id))) ∧
  (V.length ≤ startAt w n + offAt w n id →
    out.1 = .done ∧
    (∀ m, resultsAt out.2 m = resultsAt w m) ∧
    (∀ m, offsetsAt out.2 m = offsetsAt w m) ∧
    Inv V out.2)

/-! ### Pointwise accessors of a node replacement -/

theorem offAt_of_mem {w : World α σ} {n : Nat} {nd : NodeData α}
    (hnd : w.nodes[n]? = some nd) (id : Nat) :
    offAt w n id = nd.offsets.getD id 0 := by
  rw [offAt, offsetsAt, nodeD_eq_of_mem hnd]

theorem resultsAt_of_mem {w : World α σ} {n : Nat} {nd : NodeData α}
    (hnd : w.nodes[n]? = some nd) : resultsAt w n = nd.results := by
  rw [resultsAt, nodeD_eq_of_mem hnd]

theorem offsetsAt_of_mem {w : World α σ} {n : Nat} {nd : NodeData α}
    (hnd : w.nodes[n]? = some nd) : offsetsAt w n = nd.offsets := by
  rw [offsetsAt, nodeD_eq_of_mem hnd]

theorem srcAt_of_mem {w : World α σ} {n : Nat} {nd : NodeData α}
    (hnd : w.nodes[n]? = some nd) : srcAt w n = nd.src := by
  rw [srcAt, nodeD_eq_of_mem hnd]

theorem startAt_of_mem {w : World α σ} {n : Nat} {nd : NodeData α}
    (hnd : w.nodes[n]? = some nd) : startAt w n = nd.start := by
  rw [startAt, nodeD_eq_of_mem hnd]

theorem genDoneAt_of_mem {w : World α σ} {n : Nat} {nd : NodeData α}
    (hnd : w.nodes[n]? = some nd) : genDoneAt w n = nd.genDone := by
  rw [genDoneAt, nodeD_eq_of_mem hnd]

theorem srcAt_wSet_pres {w : World α σ} {n : Nat} {nd nd' : NodeData α}
    (hnd : w.nodes[n]? = some nd) (h : nd'.src = nd.src) (m : Nat) :
    srcAt (wSet w n nd') m = srcAt w m := by
  by_cases hm : n = m
  · subst hm
    rw [srcAt_wSet_self (lt_length_of_mem hnd), h, srcAt_of_mem hnd]
  · rw [srcAt_wSet_ne hm]

theorem startAt_wSet_pres {w : World α σ} {n : Nat} {nd nd' : NodeData α}
    (hnd : w.nodes[n]? = some nd) (h : nd'.start = nd.start) (m : Nat) :
    startAt (wSet w n nd') m = startAt w m := by
  by_cases hm : n = m
  · subst hm
    rw [startAt_wSet_self (lt_length_of_mem hnd), h, startAt_of_mem hnd]
  · rw [startAt_wSet_ne hm]

theorem genDoneAt_wSet_pres {w : World α σ} {n : Nat} {nd nd' : NodeData α}
    (hnd : w.nodes[n]? = some nd) (h : nd'.genDone = nd.genDone) (m : Nat) :
    genDoneAt (wSet w n nd') m = genDoneAt w m := by
  by_cases hm : n = m
  · subst hm
    rw [genDoneAt_wSet_self (lt_length_of_mem hnd), h, genDoneAt_of_mem hnd]
  · rw [genDoneAt_wSet_ne hm]

theorem resultsAt_wSet_pres {w : World α σ} {n : Nat} {nd nd' : NodeData α}
    (hnd : w.nodes[n]? = some nd) (h : nd'.results = nd.results) (m : Nat) :
    resultsAt (wSet w n nd') m = resultsAt w m := by
  by_cases hm : n = m
  · subst hm
    rw [resultsAt_wSet_self (lt_length_of_mem hnd), h, resultsAt_of_mem hnd]
  · rw [resultsAt_wSet_ne hm]

theorem offsetsLen_wSet_pres {w : World α σ} {n : Nat} {nd nd' : NodeData α}
    (hnd : w.nodes[n]? = some nd) (h : nd'.offsets.length = nd.offsets.length) (m : Nat) :
    (offsetsAt (wSet w n nd') m).length = (offsetsAt w m).length := by
  by_cases hm : n = m
  · subst hm
    rw [offsetsAt_wSet_self (lt_length_of_mem hnd), h, offsetsAt_of_mem hnd]
  · rw [offsetsAt_wSet_ne hm]

theorem offAt_wSet_pres {w : World α σ} {n : Nat} {nd nd' : NodeData α}
    (hnd : w.nodes[n]? = some nd) (h : nd'.offsets = nd.offsets) (m j : Nat) :
    offAt (wSet w n nd') m j = offAt w m j := by
  by_cases hm : n = m
  · subst hm
    rw [offAt, offsetsAt_wSet_self (lt_length_of_mem hnd), h, offAt_of_mem hnd]
  · rw [offAt, offsetsAt_wSet_ne hm, offAt]

theorem prodState_wSet (w : World α σ) (n : Nat) (nd : NodeData α) :
    (wSet w n nd).prodState = w.prodState := rfl

theorem prodNext_wSet (w : World α σ) (n : Nat) (nd : NodeData α) :
    (wSet w n nd).prodNext = w.prodNext := rfl

theorem src_none_eq_zero {V : List α} {w : World α σ} {x : Option (Nat × Nat)}
    (hinv : InvC V w x) {n : Nat}
    (hn : n < w.nodes.length) (hs : srcAt w n = none) : n = 0 := by
  by_contra h0
  obtain ⟨p, k, hpk, -, -, -⟩ := hinv.srcOk n (Nat.pos_of_ne_zero h0) hn
  rw [hs] at hpk
  cases hpk

/-! ### The cached-read branch of `request` -/

theorem reqPost_cached_val {V : List α} {w : World α σ} {n id : Nat} {nd : NodeData α} {a : α}
    (hinv : Inv V w) (hnd : w.nodes[n]? = some nd) (hid : id < nd.offsets.length)
    (hfr : ¬ nd.results.length = nd.offsets.getD id 0)
    (heq : nd.results[nd.offsets.getD id 0]? = some a) :
    ReqPost V w n id (.val a, wSet w n (bump nd id (nd.offsets.getD id 0))) := by
  have hn : n < w.nodes.length := lt_length_of_mem hnd
  have hoffAt : offAt w n id = nd.offsets.getD id 0 := offAt_of_mem hnd id
  have hle : nd.offsets.getD id 0 ≤ nd.results.length := by
    have := hinv.offLe n id hn
    rwa [hoffAt, resultsAt_of_mem hnd] at this
  have holt : nd.offsets.getD id 0 < nd.results.length :=
    lt_of_le_of_ne hle (fun hh => hfr hh.symm)
  have hslice : nd.results = (V.drop (startAt w n)).take nd.results.length := by
    have := hinv.slice n hn
    rwa [resultsAt_of_mem hnd] at this
  obtain ⟨hpos, hgetV⟩ := slice_elem hslice holt
  have hVa : V[startAt w n + nd.offsets.getD id 0]? = some a := by rw [← hgetV, heq]
  obtain ⟨hvl, hva⟩ := List.getElem?_eq_some.mp hVa
  have hbs : (bump nd id (nd.offsets.getD id 0)).src = nd.src := rfl
  have hbt : (bump nd id (nd.offsets.getD id 0)).start = nd.start := rfl
  have hbg : (bump nd id (nd.offsets.getD id 0)).genDone = nd.genDone := rfl
  have hbr : (bump nd id (nd.offsets.getD id 0)).results = nd.results := rfl
  have hbo : (bump nd id (nd.offsets.getD id 0)).offsets.length = nd.offsets.length :=
    List.length_set ..
  have hlen : (wSet w n (bump nd id (nd.offsets.getD id 0))).nodes.length = w.nodes.length :=
    nodes_length_wSet ..
  have hsrcP := srcAt_wSet_pres hnd hbs
  have hstartP := startAt_wSet_pres hnd hbt
  have hgenP := genDoneAt_wSet_pres hnd hbg
  have hresP := resultsAt_wSet_pres hnd hbr
  have hoffLenP := offsetsLen_wSet_pres hnd hbo
  have hoffSet : offAt (wSet w n (bump nd id (nd.offsets.getD id 0))) n id
      = nd.offsets.getD id 0 + 1 := by
    rw [offAt, offsetsAt_wSet_self hn]
    exact getD_set_self hid
  have hoffOther : ∀ m j, ¬(m = n ∧ j = id) →
      offAt (wSet w n (bump nd id (nd.offsets.getD id 0))) m j = offAt w m j := by
    intro m j hmj
    by_cases hm : m = n
    · subst hm
      have hj : j ≠ id := fun hj => hmj ⟨rfl, hj⟩
      have hbump : (bump nd id (nd.offsets.getD id 0)).offsets
          = nd.offsets.set id (nd.offsets.getD id 0 + 1) := rfl
      rw [offAt, offsetsAt_wSet_self hn, hbump, getD_set_ne id j _ (Ne.symm hj),
        offAt_of_mem hnd]
    · rw [offAt, offsetsAt_wSet_ne (Ne.symm hm), offAt]
  constructor
  · intro hh
    refine ⟨?_, ?_, hgenP, fun m j hmj _ => hoffOther m j hmj, ?_⟩
    · rw [hoffAt]
      exact ⟨a, hVa, rfl⟩
    · rw [hoffSet, hoffAt]
    · refine ⟨?_, ?_, ?_, ?_, ?_, ?_, ?_, ?_, ?_, ?_, ?_⟩
      · rw [hlen]; exact hinv.ne
      · rw [hsrcP]; exact hinv.rootSrc
      · rw [hstartP]; exact hinv.rootStart
      · rw [prodState_wSet, prodNext_wSet, hresP]; exact hinv.prodOk
      · intro m hm0 hm
        rw [hlen] at hm
        obtain ⟨p, k, hpk, hp, hk1, hk2⟩ := hinv.srcOk m hm0 hm
        exact ⟨p, k, (hsrcP m).symm ▸ hpk, hp, hk1, (hoffLenP p).symm ▸ hk2⟩
      · intro m hm
        rw [hlen] at hm
        rw [hoffLenP]
        exact hinv.offsNe m hm
      · intro m m' hm hm' hne heq'
        rw [hlen] at hm hm'
        rw [hsrcP] at hne
        rw [hsrcP, hsrcP] at heq'
        exact hinv.keyInj m m' hm hm' hne heq'
      · intro m j hm
        rw [hlen] at hm
        rw [hresP]
        by_cases hmj : m = n ∧ j = id
        · obtain ⟨hm', hj⟩ := hmj
          subst hm'; subst hj
          rw [hoffSet, resultsAt_of_mem hnd]
          omega
        · rw [hoffOther m j hmj]
          exact hinv.offLe m j hm
      · intro m hm
        rw [hlen] at hm
        rw [hresP, hstartP]
        exact hinv.slice m hm
      · intro m p k hm hsrc
        rw [hlen] at hm
        rw [hsrcP] at hsrc
        rw [hresP, hstartP, hstartP]
        have halign := hinv.align m p k hm hsrc
        simp only [reduceCtorEq, if_false, Nat.add_zero] at halign
        by_cases hpk : (p, k) = (n, id)
        · have hp' : p = n := congrArg Prod.fst hpk
          have hk' : k = id := congrArg Prod.snd hpk
          subst hp'; subst hk'
          rw [if_pos rfl, hoffSet, ← hoffAt]
          omega
        · rw [if_neg (by simpa using Ne.symm hpk), hoffOther p k (by simpa using hpk)]
          simpa using halign
      · intro m hm
        rw [hlen] at hm
        rw [hgenP, hresP, hstartP]
        exact hinv.doneOk m hm
  · intro hh
    rw [hoffAt] at hh
    omega

/-! ### The root (producer-pulling) branches of `request` -/

theorem reqPost_root_val {V : List α} {w : World α σ} {n id : Nat} {nd : NodeData α}
    {a : α} {s : σ}
    (hinv : Inv V w) (hnd : w.nodes[n]? = some nd) (hid : id < nd.offsets.length)
    (hfr : nd.results.length = nd.offsets.getD id 0)
    (hsrcnone : nd.src = none)
    (heqp : w.prodNext w.prodState = (.val a, s)) :
    ReqPost V w n id
      (.val a, wSet { w with prodState := s } n (pushVal nd id (nd.offsets.getD id 0) a)) := by
  have hn : n < w.nodes.length := lt_length_of_mem hnd
  have hn0 : n = 0 := src_none_eq_zero hinv hn (by rw [srcAt_of_mem hnd, hsrcnone])
  subst hn0
  have hstart0 : startAt w 0 = 0 := hinv.rootStart
  have hprod : Produces w.prodNext w.prodState (V.drop nd.results.length) := by
    have := hinv.prodOk
    rwa [resultsAt_of_mem hnd] at this
  obtain ⟨l', hdrop, hP'⟩ := produces_val hprod heqp
  have hrlt : nd.results.length < V.length := by
    by_contra hge
    rw [List.drop_eq_nil_of_le (Nat.le_of_not_lt hge)] at hdrop
    cases hdrop
  have hVr : V[nd.results.length]? = some a := by
    have h0 : (V.drop nd.results.length)[0]? = some a := by rw [hdrop]; simp
    rwa [List.getElem?_drop, Nat.add_zero] at h0
  have hl' : l' = V.drop (nd.results.length + 1) := by
    have h1 := congrArg List.tail hdrop
    rw [List.tail_drop] at h1
    simpa using h1.symm
  have hnd2 : ({ w with prodState := s } : World α σ).nodes[0]? = some nd := hnd
  have hps : (pushVal nd id (nd.offsets.getD id 0) a).src = nd.src := rfl
  have hpt : (pushVal nd id (nd.offsets.getD id 0) a).start = nd.start := rfl
  have hpg : (pushVal nd id (nd.offsets.getD id 0) a).genDone = nd.genDone := rfl
  have hpo : (pushVal nd id (nd.offsets.getD id 0) a).offsets.length = nd.offsets.length :=
    List.length_set ..
  have hpr : (pushVal nd id (nd.offsets.getD id 0) a).results = nd.results ++ [a] := rfl
  have hlen : (wSet { w with prodState := s } 0
      (pushVal nd id (nd.offsets.getD id 0) a)).nodes.length = w.nodes.length :=
    nodes_length_wSet ..
  have hsrcP : ∀ m, srcAt (wSet { w with prodState := s } 0
      (pushVal nd id (nd.offsets.getD id 0) a)) m = srcAt w m :=
    srcAt_wSet_pres hnd2 hps
  have hstartP : ∀ m, startAt (wSet { w with prodState := s } 0
      (pushVal nd id (nd.offsets.getD id 0) a)) m = startAt w m :=
    startAt_wSet_pres hnd2 hpt
  have hgenP : ∀ m, genDoneAt (wSet { w with prodState := s } 0
      (pushVal nd id (nd.offsets.getD id 0) a)) m = genDoneAt w m :=
    genDoneAt_wSet_pres hnd2 hpg
  have hoffLenP : ∀ m, (offsetsAt (wSet { w with prodState := s } 0
      (pushVal nd id (nd.offsets.getD id 0) a)) m).length = (offsetsAt w m).length :=
    offsetsLen_wSet_pres hnd2 hpo
  have hresSelf : resultsAt (wSet { w with prodState := s } 0
      (pushVal nd id (nd.offsets.getD id 0) a)) 0 = nd.results ++ [a] :=
    resultsAt_wSet_self (w := { w with prodState := s }) hn
  have hresNe : ∀ m, 0 ≠ m → resultsAt (wSet { w with prodState := s } 0
      (pushVal nd id (nd.offsets.getD id 0) a)) m = resultsAt w m :=
    fun m hm => resultsAt_wSet_ne hm
  have hoAt : offAt w 0 id = nd.offsets.getD id 0 := offAt_of_mem hnd id
  have hor : offAt w 0 id = nd.results.length := by rw [hoAt, ← hfr]
  have hoffSet : offAt (wSet { w with prodState := s } 0
      (pushVal nd id (nd.offsets.getD id 0) a)) 0 id = nd.offsets.getD id 0 + 1 := by
    rw [offAt, offsetsAt_wSet_self (w := { w with prodState := s }) hn]
    exact getD_set_self hid
  have hoffOther : ∀ m j, ¬(m = 0 ∧ j = id) →
      offAt (wSet { w with prodState := s } 0
        (pushVal nd id (nd.offsets.getD id 0) a)) m j = offAt w m j := by
    intro m j hmj
    by_cases hm : m = 0
    · subst hm
      have hj : j ≠ id := fun hj => hmj ⟨rfl, hj⟩
      have hpush : (pushVal nd id (nd.offsets.getD id 0) a).offsets
          = nd.offsets.set id (nd.offsets.getD id 0 + 1) := rfl
      rw [offAt, offsetsAt_wSet_self (w := { w with prodState := s }) hn, hpush,
        getD_set_ne id j _ (Ne.symm hj), offAt_of_mem hnd]
    · rw [offAt, offsetsAt_wSet_ne (Ne.symm hm)]; rfl
  constructor
  · intro hh
    refine ⟨⟨a, ?_, rfl⟩, ?_, hgenP, fun m j hmj _ => hoffOther m j hmj, ?_⟩
    · rw [hstart0, hor, Nat.zero_add]
      exact hVr
    · rw [hoffSet, hoAt]
    · refine ⟨?_, ?_, ?_, ?_, ?_, ?_, ?_, ?_, ?_, ?_, ?_⟩
      · rw [hlen]; exact hinv.ne
      · rw [hsrcP]; exact hinv.rootSrc
      · rw [hstartP]; exact hinv.rootStart
      · rw [hresSelf]
        have hlen2 : (nd.results ++ [a]).length = nd.results.length + 1 := by simp
        rw [hlen2, ← hl']
        exact hP'
      · intro m hm0 hm
        rw [hlen] at hm
        obtain ⟨p, k, hpk, hp, hk1, hk2⟩ := hinv.srcOk m hm0 hm
        exact ⟨p, k, (hsrcP m).symm ▸ hpk, hp, hk1, (hoffLenP p).symm ▸ hk2⟩
      · intro m hm
        rw [hlen] at hm
        rw [hoffLenP]
        exact hinv.offsNe m hm
      · intro m m' hm hm' hne heq'
        rw [hlen] at hm hm'
        rw [hsrcP] at hne
        rw [hsrcP, hsrcP] at heq'
        exact hinv.keyInj m m' hm hm' hne heq'
      · intro m j hm
        rw [hlen] at hm
        by_cases hm0 : m = 0
        · subst hm0
          rw [hresSelf]
          by_cases hj : j = id
          · subst hj
            rw [hoffSet]
            simp only [List.length_append, List.length_cons, List.length_nil]
            omega
          · rw [hoffOther 0 j (fun hc => hj hc.2)]
            have := hinv.offLe 0 j hm
            rw [resultsAt_of_mem hnd] at this
            simp only [List.length_append, List.length_cons, List.length_nil]
            omega
        · rw [hresNe m (Ne.symm hm0), hoffOther m j (fun hc => hm0 hc.1)]
          exact hinv.offLe m j hm
      · intro m hm
        rw [hlen] at hm
        by_cases hm0 : m = 0
        · subst hm0
          rw [hresSelf, hstartP, hstart0]
          have hsliceO : nd.results = (V.drop 0).take nd.results.length := by
            have := hinv.slice 0 hn
            rwa [resultsAt_of_mem hnd, hstart0] at this
          refine slice_push hsliceO ?_
          rw [Nat.zero_add]
          exact hVr
        · rw [hresNe m (Ne.symm hm0), hstartP]
          exact hinv.slice m hm
      · intro m p k hm hsrc
        rw [hlen] at hm
        rw [hsrcP] at hsrc
        have hm0 : m ≠ 0 := srcAt_ne_zero hinv (by simp [hsrc])
        rw [hresNe m (Ne.symm hm0), hstartP, hstartP]
        have halign := hinv.align m p k hm hsrc
        simp only [reduceCtorEq, if_false, Nat.add_zero] at halign
        by_cases hpk : (p, k) = (0, id)
        · have hp' : p = 0 := congrArg Prod.fst hpk
          have hk' : k = id := congrArg Prod.snd hpk
          subst hp'; subst hk'
          rw [if_pos rfl, hoffSet, ← hoAt]
          omega
        · rw [if_neg (by simpa using Ne.symm hpk), hoffOther p k (by simpa using hpk)]
          simpa using halign
      · intro m hm
        rw [hlen] at hm
        rw [hgenP]
        intro hgd
        have := hinv.doneOk m hm hgd
        by_cases hm0 : m = 0
        · subst hm0
          rw [resultsAt_of_mem hnd] at this
          rw [hresSelf, hstartP]
          simp only [List.length_append, List.length_cons, List.length_nil]
          omega
        · rw [hresNe m (Ne.symm hm0), hstartP]
          exact this
  · intro hh
    rw [hstart0, hor, Nat.zero_add] at hh
    omega

theorem reqPost_root_done {V : List α} {w : World α σ} {n id : Nat} {nd : NodeData α}
    {s : σ}
    (hinv : Inv V w) (hnd : w.nodes[n]? = some nd)
    (hfr : nd.results.length = nd.offsets.getD id 0)
    (hsrcnone : nd.src = none)
    (heqp : w.prodNext w.prodState = (.done, s)) :
    ReqPost V w n id (.done, { w with prodState := s }) := by
  have hn : n < w.nodes.length := lt_length_of_mem hnd
  have hn0 : n = 0 := src_none_eq_zero hinv hn (by rw [srcAt_of_mem hnd, hsrcnone])
  subst hn0
  have hstart0 : startAt w 0 = 0 := hinv.rootStart
  have hprod : Produces w.prodNext w.prodState (V.drop nd.results.length) := by
    have := hinv.prodOk
    rwa [resultsAt_of_mem hnd] at this
  obtain ⟨hdrop, hP'⟩ := produces_done hprod heqp
  have hrge : V.length ≤ nd.results.length := by
    by_contra hlt
    rw [List.drop_eq_nil_iff] at hdrop
    omega
  have hor : offAt w 0 id = nd.results.length := by rw [offAt_of_mem hnd id, ← hfr]
  constructor
  · intro hh
    rw [hstart0, hor, Nat.zero_add] at hh
    omega
  · intro _
    refine ⟨rfl, fun m => rfl, fun m => rfl, ?_⟩
    refine ⟨hinv.ne, hinv.rootSrc, hinv.rootStart, ?_, hinv.srcOk, hinv.offsNe,
      hinv.keyInj, hinv.offLe, hinv.slice, hinv.align, hinv.doneOk⟩
    show Produces w.prodNext s (V.drop (resultsAt w 0).length)
    rw [resultsAt_of_mem hnd]
    have hnil : V.drop nd.results.length = [] := hdrop
    rw [hnil]
    exact hP'

theorem reqPost_gendone {V : List α} {w : World α σ} {n id : Nat} {nd : NodeData α}
    (hinv : Inv V w) (hnd : w.nodes[n]? = some nd)
    (hfr : nd.results.length = nd.offsets.getD id 0)
    (hgd : nd.genDone = true) :
    ReqPost V w n id (.done, w) := by
  have hn : n < w.nodes.length := lt_length_of_mem hnd
  have hdone := hinv.doneOk n hn (by rw [genDoneAt_of_mem hnd]; exact hgd)
  rw [resultsAt_of_mem hnd] at hdone
  have hor : offAt w n id = nd.results.length := by rw [offAt_of_mem hnd id, ← hfr]
  constructor
  · intro hh
    rw [hor] at hh
    omega
  · intro _
    exact ⟨rfl, fun m => rfl, fun m => rfl, hinv⟩

/-! ### The child (parent-delegating) branches of `request` -/

theorem offsetsAt_wSet_pres {w : World α σ} {n : Nat} {nd nd' : NodeData α}
    (hnd : w.nodes[n]? = some nd) (h : nd'.offsets = nd.offsets) (m : Nat) :
    offsetsAt (wSet w n nd') m = offsetsAt w m := by
  by_cases hm : n = m
  · subst hm
    rw [offsetsAt_wSet_self (lt_length_of_mem hnd), h, offsetsAt_of_mem hnd]
  · rw [offsetsAt_wSet_ne hm]

theorem reqPost_child_val {V : List α} {w w1 : World α σ} {f n id p k : Nat}
    {nd : NodeData α} {a : α}
    (hinv : Inv V w) (hnd : w.nodes[n]? = some nd) (hid : id < nd.offsets.length)
    (hfr : nd.results.length = nd.offsets.getD id 0)
    (hsrck : nd.src = some (p, k))
    (hgd : ¬ nd.genDone = true)
    (hpn : p < n)
    (hreq : requestAux f w p k = (.val a, w1))
    (hpost : ReqPost V w p k (.val a, w1)) :
    ReqPost V w n id (.val a, wSet w1 n (pushVal nd id (nd.offsets.getD id 0) a)) := by
  have hn : n < w.nodes.length := lt_length_of_mem hnd
  have halignn : startAt w n + nd.results.length = startAt w p + offAt w p k := by
    have h1 := hinv.align n p k hn (by rw [srcAt_of_mem hnd, hsrck])
    simp only [reduceCtorEq, if_false, Nat.add_zero] at h1
    rwa [resultsAt_of_mem hnd] at h1
  have hposn : startAt w n + offAt w n id = startAt w p + offAt w p k := by
    rw [offAt_of_mem hnd id, ← hfr]
    exact halignn
  have hposlt : startAt w p + offAt w p k < V.length := by
    by_contra hge
    have := (hpost.2 (Nat.le_of_not_lt hge)).1
    simp at this
  obtain ⟨⟨a', hVa', hfst⟩, hoff1x, hgen1x, hoffOther1x, hinvE1x⟩ := hpost.1 hposlt
  have hoff1 : offAt w1 p k = offAt w p k + 1 := hoff1x
  have hgen1 : ∀ m, genDoneAt w1 m = genDoneAt w m := hgen1x
  have hoffOther1 : ∀ m j, ¬(m = p ∧ j = k) →
      (∀ c, c < w.nodes.length → srcAt w c ≠ some (m, j)) →
      offAt w1 m j = offAt w m j := hoffOther1x
  have hinvE1 : InvC V w1 (some (p, k)) := hinvE1x
  clear hoff1x hgen1x hoffOther1x hinvE1x
  have ha2 : a = a' := by
    have h2 := hfst
    simp only [PullResult.val.injEq] at h2
    exact h2
  subst ha2
  have hframe : FrameRel w w1 := by
    have := requestAux_frame f w p k
    rwa [hreq] at this
  have hlen1 : w1.nodes.length = w.nodes.length := hframe.1
  have hsrc1 : ∀ m, srcAt w1 m = srcAt w m := fun m => (hframe.2.2 m).1
  have hstart1 : ∀ m, startAt w1 m = startAt w m := fun m => (hframe.2.2 m).2.1
  have hofflen1 : ∀ m, (offsetsAt w1 m).length = (offsetsAt w m).length :=
    fun m => (hframe.2.2 m).2.2.1
  have hn1 : n < w1.nodes.length := hlen1 ▸ hn
  have hnd1 : w1.nodes[n]? = some nd := by
    have hh : nodeD w1 n = nodeD w n := by
      have := requestAux_nodeD_high f w p k n hpn
      rwa [hreq] at this
    rw [nodes_getElem?_eq_some hn1, hh, nodeD_eq_of_mem hnd]
  have hn0 : n ≠ 0 := by omega
  have hps : (pushVal nd id (nd.offsets.getD id 0) a).src = nd.src := rfl
  have hpt : (pushVal nd id (nd.offsets.getD id 0) a).start = nd.start := rfl
  have hpg : (pushVal nd id (nd.offsets.getD id 0) a).genDone = nd.genDone := rfl
  have hpo : (pushVal nd id (nd.offsets.getD id 0) a).offsets.length = nd.offsets.length :=
    List.length_set ..
  have hlen : (wSet w1 n (pushVal nd id (nd.offsets.getD id 0) a)).nodes.length
      = w.nodes.length := by
    rw [nodes_length_wSet, hlen1]
  have hsrcP : ∀ m, srcAt (wSet w1 n (pushVal nd id (nd.offsets.getD id 0) a)) m
      = srcAt w m := fun m => (srcAt_wSet_pres hnd1 hps m).trans (hsrc1 m)
  have hstartP : ∀ m, startAt (wSet w1 n (pushVal nd id (nd.offsets.getD id 0) a)) m
      = startAt w m := fun m => (startAt_wSet_pres hnd1 hpt m).trans (hstart1 m)
  have hgenP : ∀ m, genDoneAt (wSet w1 n (pushVal nd id (nd.offsets.getD id 0) a)) m
      = genDoneAt w m := fun m => (genDoneAt_wSet_pres hnd1 hpg m).trans (hgen1 m)
  have hoffLenP : ∀ m, (offsetsAt (wSet w1 n (pushVal nd id (nd.offsets.getD id 0) a)) m).length
      = (offsetsAt w m).length :=
    fun m => (offsetsLen_wSet_pres hnd1 hpo m).trans (hofflen1 m)
  have hresSelf : resultsAt (wSet w1 n (pushVal nd id (nd.offsets.getD id 0) a)) n
      = nd.results ++ [a] := resultsAt_wSet_self hn1
  have hresNe : ∀ m, n ≠ m → resultsAt (wSet w1 n (pushVal nd id (nd.offsets.getD id 0) a)) m
      = resultsAt w1 m := fun m hm => resultsAt_wSet_ne hm
  have hoAt : offAt w n id = nd.offsets.getD id 0 := offAt_of_mem hnd id
  have hoffSet : offAt (wSet w1 n (pushVal nd id (nd.offsets.getD id 0) a)) n id
      = nd.offsets.getD id 0 + 1 := by
    rw [offAt, offsetsAt_wSet_self hn1]
    exact getD_set_self hid
  have hro1 : resultsAt w1 n = nd.results := resultsAt_of_mem hnd1
  have hoffNJ : ∀ j, j ≠ id → offAt (wSet w1 n (pushVal nd id (nd.offsets.getD id 0) a)) n j
      = offAt w1 n j := by
    intro j hj
    have hpush : (pushVal nd id (nd.offsets.getD id 0) a).offsets
        = nd.offsets.set id (nd.offsets.getD id 0 + 1) := rfl
    rw [offAt, offsetsAt_wSet_self hn1, hpush, getD_set_ne id j _ (Ne.symm hj),
      offAt_of_mem hnd1]
  have hoffNe : ∀ m j, m ≠ n → offAt (wSet w1 n (pushVal nd id (nd.offsets.getD id 0) a)) m j
      = offAt w1 m j := by
    intro m j hm
    rw [offAt, offsetsAt_wSet_ne (Ne.symm hm), offAt]
  have hoffOther : ∀ m j, ¬(m = n ∧ j = id) →
      (∀ c, c < w.nodes.length → srcAt w c ≠ some (m, j)) →
      offAt (wSet w1 n (pushVal nd id (nd.offsets.getD id 0) a)) m j = offAt w m j := by
    intro m j hmj hkey
    by_cases hm : m = n
    · subst hm
      have hj : j ≠ id := fun hj => hmj ⟨rfl, hj⟩
      rw [hoffNJ j hj, offAt_of_mem hnd1, offAt_of_mem hnd]
    · rw [hoffNe m j hm]
      refine hoffOther1 m j ?_ hkey
      intro hmj'
      obtain ⟨hm', hj'⟩ := hmj'
      subst hm'; subst hj'
      exact hkey n hn (by rw [srcAt_of_mem hnd, hsrck])
  constructor
  · intro hh
    refine ⟨⟨a, ?_, rfl⟩, ?_, hgenP, hoffOther, ?_⟩
    · rw [hposn]
      exact hVa'
    · rw [hoffSet, hoAt]
    · refine ⟨?_, ?_, ?_, ?_, ?_, ?_, ?_, ?_, ?_, ?_, ?_⟩
      · rw [hlen]; exact hinv.ne
      · rw [hsrcP]; exact hinv.rootSrc
      · rw [hstartP]; exact hinv.rootStart
      · rw [prodState_wSet, prodNext_wSet, resultsAt_wSet_ne hn0]
        exact hinvE1.prodOk
      · intro m hm0 hm
        rw [hlen] at hm
        obtain ⟨p', k', hpk', hp', hk1', hk2'⟩ := hinv.srcOk m hm0 hm
        exact ⟨p', k', (hsrcP m).symm ▸ hpk', hp', hk1', (hoffLenP p').symm ▸ hk2'⟩
      · intro m hm
        rw [hlen] at hm
        rw [hoffLenP]
        exact hinv.offsNe m hm
      · intro m m' hm hm' hne heq'
        rw [hlen] at hm hm'
        rw [hsrcP] at hne
        rw [hsrcP, hsrcP] at heq'
        exact hinv.keyInj m m' hm hm' hne heq'
      · intro m j hm
        rw [hlen] at hm
        by_cases hmn : m = n
        · subst hmn
          rw [hresSelf]
          by_cases hj : j = id
          · subst hj
            rw [hoffSet]
            simp only [List.length_append, List.length_cons, List.length_nil]
            omega
          · rw [hoffNJ j hj]
            have := hinvE1.offLe m j (hlen1 ▸ hm)
            rw [hro1] at this
            simp only [List.length_append, List.length_cons, List.length_nil]
            omega
        · rw [hresNe m (Ne.symm hmn), hoffNe m j hmn]
          exact hinvE1.offLe m j (hlen1 ▸ hm)
      · intro m hm
        rw [hlen] at hm
        by_cases hmn : m = n
        · subst hmn
          rw [hresSelf, hstartP]
          have hsliceO : nd.results = (V.drop (startAt w m)).take nd.results.length := by
            have := hinv.slice m hm
            rwa [resultsAt_of_mem hnd] at this
          refine slice_push hsliceO ?_
          rw [halignn]
          exact hVa'
        · rw [hresNe m (Ne.symm hmn), startAt_wSet_ne (Ne.symm hmn)]
          exact hinvE1.slice m (hlen1 ▸ hm)
      · intro m p' k' hm hsrc'
        rw [hlen] at hm
        rw [hsrcP] at hsrc'
        have hm1 : m < w1.nodes.length := hlen1 ▸ hm
        by_cases hmn : m = n
        · subst hmn
          have hsm : srcAt w m = some (p, k) := by rw [srcAt_of_mem hnd, hsrck]
          have hpk' : (p', k') = (p, k) := by
            have h2 := hsrc'.symm.trans hsm
            simpa using h2
          have hp'' : p' = p := congrArg Prod.fst hpk'
          have hk'' : k' = k := congrArg Prod.snd hpk'
          subst hp''; subst hk''
          have hne' : ¬ (some (m, id) : Option (Nat × Nat)) = some (p', k') := by
            simp only [Option.some.injEq, Prod.mk.injEq, not_and]
            intro hp3
            omega
          rw [if_neg hne', hresSelf, hstartP, hstartP,
            hoffNe p' k' (by omega), hoff1]
          simp only [List.length_append, List.length_cons, List.length_nil]
          omega
        · have hsrc1m : srcAt w1 m = some (p', k') := by rw [hsrc1]; exact hsrc'
          have halignm := hinvE1.align m p' k' hm1 hsrc1m
          by_cases hpk2 : (p', k') = (n, id)
          · have hp3 : p' = n := congrArg Prod.fst hpk2
            have hk3 : k' = id := congrArg Prod.snd hpk2
            subst hp3; subst hk3
            rw [if_pos rfl, hresNe m (Ne.symm hmn), hstartP, hstartP, hoffSet]
            have hne2 : ¬ (some (p, k) : Option (Nat × Nat)) = some (p', k') := by
              simp only [Option.some.injEq, Prod.mk.injEq, not_and]
              intro hp4
              omega
            rw [if_neg hne2, hstart1, hstart1, offAt_of_mem hnd1] at halignm
            omega
          · rw [if_neg (by simpa using Ne.symm hpk2), hresNe m (Ne.symm hmn),
              hstartP, hstartP]
            by_cases hpk3 : (p', k') = (p, k)
            · exfalso
              have hp4 : p' = p := congrArg Prod.fst hpk3
              have hk4 : k' = k := congrArg Prod.snd hpk3
              subst hp4; subst hk4
              have hsrcn1 : srcAt w1 n = some (p', k') := by
                rw [srcAt_of_mem hnd1, hsrck]
              exact hmn (hinvE1.keyInj m n hm1 (hlen1 ▸ hn) (by simp [hsrc1m])
                (hsrc1m.trans hsrcn1.symm))
            · have hne3 : ¬ (some (p, k) : Option (Nat × Nat)) = some (p', k') := by
                intro hc
                exact hpk3 (by simpa using hc.symm)
              rw [if_neg hne3] at halignm
              have hoffpk : offAt (wSet w1 n (pushVal nd id (nd.offsets.getD id 0) a)) p' k'
                  = offAt w1 p' k' := by
                by_cases hp5 : p' = n
                · subst hp5
                  have hk5 : k' ≠ id := fun hk6 => hpk2 (by rw [hk6])
                  rw [hoffNJ k' hk5]
                · rw [hoffNe p' k' hp5]
              rw [hoffpk, ← hstart1 m, ← hstart1 p']
              simpa using halignm
      · intro m hm
        rw [hlen] at hm
        rw [hgenP]
        intro hgd'
        by_cases hmn : m = n
        · subst hmn
          rw [genDoneAt_of_mem hnd] at hgd'
          exact absurd hgd' hgd
        · rw [hresNe m (Ne.symm hmn), hstartP, ← hstart1 m]
          exact hinvE1.doneOk m (hlen1 ▸ hm) (by rw [hgen1]; exact hgd')
  · intro hh
    rw [hposn] at hh
    omega

theorem reqPost_child_done {V : List α} {w w1 : World α σ} {f n id p k : Nat}
    {nd : NodeData α}
    (hinv : Inv V w) (hnd : w.nodes[n]? = some nd)
    (hfr : nd.results.length = nd.offsets.getD id 0)
    (hsrck : nd.src = some (p, k))
    (hpn : p < n)
    (hreq : requestAux f w p k = (.done, w1))
    (hpost : ReqPost V w p k (.done, w1)) :
    ReqPost V w n id (.done, wSet w1 n (markDone nd)) := by
  have hn : n < w.nodes.length := lt_length_of_mem hnd
  have halignn : startAt w n + nd.results.length = startAt w p + offAt w p k := by
    have h1 := hinv.align n p k hn (by rw [srcAt_of_mem hnd, hsrck])
    simp only [reduceCtorEq, if_false, Nat.add_zero] at h1
    rwa [resultsAt_of_mem hnd] at h1
  have hposn : startAt w n + offAt w n id = startAt w p + offAt w p k := by
    rw [offAt_of_mem hnd id, ← hfr]
    exact halignn
  have hge : V.length ≤ startAt w p + offAt w p k := by
    by_contra hlt
    obtain ⟨a', _, hfst⟩ := (hpost.1 (Nat.lt_of_not_le hlt)).1
    simp at hfst
  obtain ⟨_, hres1x, hoffs1x, hinv1x⟩ := hpost.2 hge
  have hres1 : ∀ m, resultsAt w1 m = resultsAt w m := hres1x
  have hoffs1 : ∀ m, offsetsAt w1 m = offsetsAt w m := hoffs1x
  have hinv1 : Inv V w1 := hinv1x
  have hframe : FrameRel w w1 := by
    have := requestAux_frame f w p k
    rwa [hreq] at this
  have hlen1 : w1.nodes.length = w.nodes.length := hframe.1
  have hstart1 : ∀ m, startAt w1 m = startAt w m := fun m => (hframe.2.2 m).2.1
  have hn1 : n < w1.nodes.length := hlen1 ▸ hn
  have hnd1 : w1.nodes[n]? = some nd := by
    have hh : nodeD w1 n = nodeD w n := by
      have := requestAux_nodeD_high f w p k n hpn
      rwa [hreq] at this
    rw [nodes_getElem?_eq_some hn1, hh, nodeD_eq_of_mem hnd]
  have hms : (markDone nd).src = nd.src := rfl
  have hmt : (markDone nd).start = nd.start := rfl
  have hmr : (markDone nd).results = nd.results := rfl
  have hmo : (markDone nd).offsets = nd.offsets := rfl
  have hlen' : (wSet w1 n (markDone nd)).nodes.length = w1.nodes.length :=
    nodes_length_wSet ..
  have hsrcP := srcAt_wSet_pres hnd1 hms
  have hstartP := startAt_wSet_pres hnd1 hmt
  have hresP := resultsAt_wSet_pres hnd1 hmr
  have hoffP := offAt_wSet_pres hnd1 hmo
  have hoffsP := offsetsAt_wSet_pres hnd1 hmo
  constructor
  · intro hh
    rw [hposn] at hh
    omega
  · intro _
    refine ⟨rfl, ?_, ?_, ?_⟩
    · intro m
      rw [hresP, hres1]
    · intro m
      rw [hoffsP, hoffs1]
    · refine ⟨?_, ?_, ?_, ?_, ?_, ?_, ?_, ?_, ?_, ?_, ?_⟩
      · rw [hlen']; exact hinv1.ne
      · rw [hsrcP]; exact hinv1.rootSrc
      · rw [hstartP]; exact hinv1.rootStart
      · rw [prodState_wSet, prodNext_wSet, hresP]; exact hinv1.prodOk
      · intro m hm0 hm
        rw [hlen'] at hm
        obtain ⟨p', k', hpk', hp', hk1', hk2'⟩ := hinv1.srcOk m hm0 hm
        refine ⟨p', k', (hsrcP m).symm ▸ hpk', hp', hk1', ?_⟩
        rw [hoffsP]
        exact hk2'
      · intro m hm
        rw [hlen'] at hm
        rw [hoffsP]
        exact hinv1.offsNe m hm
      · intro m m' hm hm' hne heq'
        rw [hlen'] at hm hm'
        rw [hsrcP] at hne
        rw [hsrcP, hsrcP] at heq'
        exact hinv1.keyInj m m' hm hm' hne heq'
      · intro m j hm
        rw [hlen'] at hm
        rw [hoffP, hresP]
        exact hinv1.offLe m j hm
      · intro m hm
        rw [hlen'] at hm
        rw [hresP, hstartP]
        exact hinv1.slice m hm
      · intro m p' k' hm hsrc'
        rw [hlen'] at hm
        rw [hsrcP] at hsrc'
        rw [hresP, hstartP, hstartP, hoffP]
        exact hinv1.align m p' k' hm hsrc'
      · intro m hm hgd'
        rw [hlen'] at hm
        rw [hresP, hstartP]
        by_cases hmn : m = n
        · subst hmn
          rw [hstart1, resultsAt_of_mem hnd1]
          omega
        · have hgd1 : genDoneAt w1 m = true := by
            have hx : genDoneAt (wSet w1 n (markDone nd)) m = genDoneAt w1 m :=
              genDoneAt_wSet_ne (fun hc => hmn hc.symm)
            rw [← hx]
            exact hgd'
          exact hinv1.doneOk m hm hgd1

/-- One `request` on a world reachable from a wrapped list `V` behaves exactly
as `ReqPost` describes, by strong induction along the parent chain. -/
theorem reqCharAux {V : List α} :
    ∀ (fuel n : Nat) (w : World α σ) (id : Nat), n < fuel →
      Inv V w → n < w.nodes.length → id < (offsetsAt w n).length →
      ReqPost V w n id (requestAux fuel w n id) := by
  intro fuel
  induction fuel with
  | zero => intro n w id h; omega
  | succ f ih =>
    intro n w id hfuel hinv hn hid
    simp only [requestAux]
    split
    · rename_i heq0
      rw [nodes_getElem?_eq_some hn] at heq0
      cases heq0
    · rename_i nd hnd
      have hidnd : id < nd.offsets.length := by
        rwa [offsetsAt_of_mem hnd] at hid
      split
      · rename_i hfr
        split
        · rename_i hsrcnone
          split
          · rename_i a s heqp
            exact reqPost_root_val hinv hnd hidnd hfr hsrcnone heqp
          · rename_i s heqp
            exact reqPost_root_done hinv hnd hfr hsrcnone heqp
          · rename_i s heqp
            exfalso
            exact produces_not_exn hinv.prodOk heqp
        · rename_i p k hsrck
          split
          · rename_i hgd
            exact reqPost_gendone hinv hnd hfr hgd
          · rename_i hgd
            have hsrcn : srcAt w n = some (p, k) := by rw [srcAt_of_mem hnd, hsrck]
            have hn0 : n ≠ 0 := srcAt_ne_zero hinv (by simp [hsrcn])
            obtain ⟨p0, k0, hpk0, hp0, hk10, hk20⟩ :=
              hinv.srcOk n (Nat.pos_of_ne_zero hn0) hn
            rw [hsrcn] at hpk0
            have h3 : p = p0 ∧ k = k0 := by simpa using hpk0
            obtain ⟨hp3, hk3⟩ := h3
            subst hp3
            subst hk3
            split
            · rename_i hpn
              have hpost := ih p w k (by omega) hinv (by omega) hk20
              split
              · rename_i a w1 heqr
                rw [heqr] at hpost
                exact reqPost_child_val hinv hnd hidnd hfr hsrck hgd hpn heqr hpost
              · rename_i w1 heqr
                rw [heqr] at hpost
                exact reqPost_child_done hinv hnd hfr hsrck hpn heqr hpost
              · rename_i w1 heqr
                rw [heqr] at hpost
                exfalso
                rcases Nat.lt_or_ge (startAt w p + offAt w p k) V.length with hlt | hge
                · obtain ⟨⟨a', _, hfst⟩, _⟩ := hpost.1 hlt
                  simp at hfst
                · have := (hpost.2 hge).1
                  simp at this
            · rename_i hpn
              exact absurd hp0 hpn
      · rename_i hfr
        split
        · rename_i a heqc
          exact reqPost_cached_val hinv hnd hidnd hfr heqc
        · rename_i heqc
          exfalso
          have hle : nd.offsets.getD id 0 ≤ nd.results.length := by
            have := hinv.offLe n id hn
            rwa [offAt_of_mem hnd id, resultsAt_of_mem hnd] at this
          have holt : nd.offsets.getD id 0 < nd.results.length :=
            lt_of_le_of_ne hle (fun hh => hfr hh.symm)
          rw [List.getElem?_eq_getElem holt] at heqc
          cases heqc

/-- The characterization of one `request`, packaged for the unfuelled form. -/
theorem reqChar {V : List α} {w : World α σ} {n i : Nat}
    (hinv : Inv V w) (hn : n < w.nodes.length) (hid : i < (offsetsAt w n).length) :
    ReqPost V w n i (request w n i) :=
  reqCharAux (n + 1) n w i (Nat.lt_succ_self n) hinv hn hid

/-! ### Characterization of `use` and `rest` -/

theorem nodeD_grow_old {w : World α σ} {n : Nat} {ndP child : NodeData α} {m : Nat}
    (hmn : m ≠ n) (hml : m ≠ w.nodes.length) :
    nodeD { w with nodes := (w.nodes.set n ndP) ++ [child] } m = nodeD w m := by
  rcases Nat.lt_or_ge m w.nodes.length with hm | hm
  · rw [nodeD, List.getElem?_append_left (by simpa [List.length_set] using hm),
      List.getElem?_set_ne (fun h => hmn h.symm), nodeD]
  · have hm2 : w.nodes.length < m := lt_of_le_of_ne hm (fun h => hml h.symm)
    have h1 : ((w.nodes.set n ndP) ++ [child])[m]? = none := by
      apply List.getElem?_eq_none
      simp [List.length_set]
      omega
    have h2 : w.nodes[m]? = none := List.getElem?_eq_none (by omega)
    rw [nodeD, h1, nodeD, h2]

theorem nodeD_grow_self {w : World α σ} {n : Nat} {ndP child : NodeData α}
    (hn : n < w.nodes.length) :
    nodeD { w with nodes := (w.nodes.set n ndP) ++ [child] } n = ndP := by
  rw [nodeD, List.getElem?_append_left (by simpa [List.length_set] using hn),
    List.getElem?_set_self (by simpa [List.length_set] using hn)]
  rfl

theorem nodeD_grow_new {w : World α σ} {n : Nat} {ndP child : NodeData α} :
    nodeD { w with nodes := (w.nodes.set n ndP) ++ [child] } w.nodes.length = child := by
  rw [nodeD, List.getElem?_append_right (by simp [List.length_set])]
  simp

theorem use_eq {w : World α σ} {n : Nat} {nd : NodeData α}
    (hnd : w.nodes[n]? = some nd) :
    use w n = ({ w with
      nodes := (w.nodes.set n { nd with offsets := nd.offsets ++ [0] }) ++
        [{ results := [], offsets := [0], src := some (n, nd.offsets.length),
           genDone := false, start := nd.start }] },
      w.nodes.length) := by
  simp only [use, hnd]

theorem rest_eq {w : World α σ} {n : Nat} {nd : NodeData α}
    (hnd : w.nodes[n]? = some nd) :
    rest w n = ({ w with
      nodes := (w.nodes.set n { nd with offsets := nd.offsets ++ [nd.results.length] }) ++
        [{ results := [], offsets := [0], src := some (n, nd.offsets.length),
           genDone := false, start := nd.start + nd.results.length }] },
      w.nodes.length) := by
  simp only [rest, hnd]

theorem use_ge {w : World α σ} {n : Nat} (hn : w.nodes.length ≤ n) :
    use w n = (w, w.nodes.length) := by
  simp only [use, List.getElem?_eq_none hn]

theorem rest_ge {w : World α σ} {n : Nat} (hn : w.nodes.length ≤ n) :
    rest w n = (w, w.nodes.length) := by
  simp only [rest, List.getElem?_eq_none hn]

/-- What `use`/`rest` on a valid node do, stated for the common shape
`(w.nodes.set n ndP) ++ [child]` where `ndP` only appends one offset entry
and `child` is a fresh empty node reading `(n, kNew)`. -/
theorem grow_inv {V : List α} {w : World α σ} {n : Nat} {nd : NodeData α}
    (hinv : Inv V w) (hnd : w.nodes[n]? = some nd) (newOff : Nat)
    (hnewLe : newOff ≤ nd.results.length) :
    Inv V { w with
      nodes := (w.nodes.set n { nd with offsets := nd.offsets ++ [newOff] }) ++
        [{ results := [], offsets := [0], src := some (n, nd.offsets.length),
           genDone := false, start := nd.start + newOff }] } := by
  have hn : n < w.nodes.length := lt_length_of_mem hnd
  set w' : World α σ := { w with
      nodes := (w.nodes.set n { nd with offsets := nd.offsets ++ [newOff] }) ++
        [{ results := [], offsets := [0], src := some (n, nd.offsets.length),
           genDone := false, start := nd.start + newOff }] } with hw'
  have hlen : w'.nodes.length = w.nodes.length + 1 := by
    simp [hw', List.length_set]
  have hself : nodeD w' n = { nd with offsets := nd.offsets ++ [newOff] } :=
    nodeD_grow_self hn
  have hnew : nodeD w' w.nodes.length =
      { results := [], offsets := [0], src := some (n, nd.offsets.length),
        genDone := false, start := nd.start + newOff } :=
    nodeD_grow_new
  have hold : ∀ m, m ≠ n → m ≠ w.nodes.length → nodeD w' m = nodeD w m :=
    fun m h1 h2 => nodeD_grow_old h1 h2
  have hnl : n ≠ w.nodes.length := by omega
  have hressame : ∀ m, resultsAt w' m = resultsAt w m := by
    intro m
    by_cases h1 : m = n
    · subst h1; rw [resultsAt, hself, resultsAt, nodeD_eq_of_mem hnd]
    · by_cases h2 : m = w.nodes.length
      · subst h2
        rw [resultsAt, hnew, resultsAt, nodeD, List.getElem?_eq_none le_rfl]
        rfl
      · rw [resultsAt, hold m h1 h2, resultsAt]
  have hstartsame : ∀ m, m ≠ w.nodes.length → startAt w' m = startAt w m := by
    intro m h2
    by_cases h1 : m = n
    · subst h1; rw [startAt, hself, startAt, nodeD_eq_of_mem hnd]
    · rw [startAt, hold m h1 h2, startAt]
  have hgensame : ∀ m, genDoneAt w' m = genDoneAt w m := by
    intro m
    by_cases h1 : m = n
    · subst h1; rw [genDoneAt, hself, genDoneAt, nodeD_eq_of_mem hnd]
    · by_cases h2 : m = w.nodes.length
      · subst h2
        rw [genDoneAt, hnew, genDoneAt, nodeD, List.getElem?_eq_none le_rfl]
        rfl
      · rw [genDoneAt, hold m h1 h2, genDoneAt]
  have hsrcsame : ∀ m, m ≠ w.nodes.length → srcAt w' m = srcAt w m := by
    intro m h2
    by_cases h1 : m = n
    · subst h1; rw [srcAt, hself, srcAt, nodeD_eq_of_mem hnd]
    · rw [srcAt, hold m h1 h2, srcAt]
  have hoffn : ∀ j, j < nd.offsets.length →
      offAt w' n j = offAt w n j := by
    intro j hj
    rw [offAt, offsetsAt, hself, offAt_of_mem hnd]
    exact getD_append_lt hj
  have hoffsame : ∀ m j, m ≠ n → offAt w' m j = offAt w m j := by
    intro m j h1
    by_cases h2 : m = w.nodes.length
    · subst h2
      rw [offAt, offsetsAt, hnew, offAt, offsetsAt, nodeD,
        List.getElem?_eq_none le_rfl]
      cases j with
      | zero => rfl
      | succ j => simp [List.getD]
    · rw [offAt, offsetsAt, hold m h1 h2, offAt, offsetsAt]
  have hoffnewkey : offAt w' n nd.offsets.length = newOff := by
    rw [offAt, offsetsAt, hself]
    exact getD_append_length
  have hoffnHigh : ∀ j, nd.offsets.length < j → offAt w' n j = 0 := by
    intro j hj
    rw [offAt, offsetsAt, hself]
    exact getD_of_length_le (by simp; omega)
  refine ⟨?_, ?_, ?_, ?_, ?_, ?_, ?_, ?_, ?_, ?_, ?_⟩
  · rw [hlen]; omega
  · rw [hsrcsame 0 (by omega)]; exact hinv.rootSrc
  · rw [hstartsame 0 (by omega)]; exact hinv.rootStart
  · show Produces w.prodNext w.prodState (V.drop (resultsAt w' 0).length)
    rw [hressame]
    exact hinv.prodOk
  · intro m hm0 hm
    rw [hlen] at hm
    by_cases h2 : m = w.nodes.length
    · subst h2
      refine ⟨n, nd.offsets.length, ?_, hn, ?_, ?_⟩
      · rw [srcAt, hnew]
      · have := hinv.offsNe n hn
        rw [offsetsAt_of_mem hnd] at this
        omega
      · rw [offsetsAt, hself]
        simp
    · obtain ⟨p, k, hpk, hp, hk1, hk2⟩ := hinv.srcOk m hm0 (by omega)
      refine ⟨p, k, by rw [hsrcsame m h2]; exact hpk, hp, hk1, ?_⟩
      by_cases h3 : p = n
      · subst h3
        rw [offsetsAt, hself]
        rw [offsetsAt_of_mem hnd] at hk2
        simp
        omega
      · have hpl : p ≠ w.nodes.length := by omega
        rw [offsetsAt, hold p h3 hpl]
        exact hk2
  · intro m hm
    rw [hlen] at hm
    by_cases h2 : m = w.nodes.length
    · subst h2
      rw [offsetsAt, hnew]
      simp
    · by_cases h1 : m = n
      · subst h1
        rw [offsetsAt, hself]
        simp
      · rw [offsetsAt, hold m h1 h2]
        exact hinv.offsNe m (by omega)
  · intro m m' hm hm' hne heq'
    rw [hlen] at hm hm'
    by_cases h2 : m = w.nodes.length
    · by_cases h2' : m' = w.nodes.length
      · omega
      · exfalso
        subst h2
        rw [srcAt, hnew] at heq'
        have hm'lt : m' < w.nodes.length := by omega
        rcases eq_or_ne m' 0 with h0 | h0
        · subst h0
          rw [hsrcsame 0 (by omega), hinv.rootSrc] at heq'
          cases heq'
        · obtain ⟨p, k, hpk, _, _, hk2⟩ := hinv.srcOk m' (Nat.pos_of_ne_zero h0) hm'lt
          rw [hsrcsame m' h2', hpk] at heq'
          obtain ⟨hnp, hko⟩ : n = p ∧ nd.offsets.length = k := by simpa using heq'
          rw [← hnp, offsetsAt_of_mem hnd] at hk2
          omega
    · by_cases h2' : m' = w.nodes.length
      · exfalso
        subst h2'
        replace heq' := heq'.symm
        rw [srcAt, hnew] at heq'
        have hmlt : m < w.nodes.length := by omega
        rcases eq_or_ne m 0 with h0 | h0
        · subst h0
          rw [hsrcsame 0 (by omega), hinv.rootSrc] at hne
          exact hne rfl
        · obtain ⟨p, k, hpk, _, _, hk2⟩ := hinv.srcOk m (Nat.pos_of_ne_zero h0) hmlt
          rw [hsrcsame m h2, hpk] at heq'
          obtain ⟨hnp, hko⟩ : n = p ∧ nd.offsets.length = k := by simpa using heq'
          rw [← hnp, offsetsAt_of_mem hnd] at hk2
          omega
      · rw [hsrcsame m h2] at hne heq'
        rw [hsrcsame m' h2'] at heq'
        exact hinv.keyInj m m' (by omega) (by omega) hne heq'
  · intro m j hm
    rw [hlen] at hm
    rw [hressame]
    by_cases h1 : m = n
    · subst h1
      rcases lt_trichotomy j nd.offsets.length with hj | hj | hj
      · rw [hoffn j hj]
        exact hinv.offLe m j hn
      · subst hj
        rw [hoffnewkey, resultsAt_of_mem hnd]
        exact hnewLe
      · rw [hoffnHigh j hj]
        omega
    · rw [hoffsame m j h1]
      by_cases h2 : m = w.nodes.length
      · subst h2
        rw [offAt, offsetsAt, nodeD, List.getElem?_eq_none le_rfl]
        simp [List.getD]
      · exact hinv.offLe m j (by omega)
  · intro m hm
    rw [hlen] at hm
    rw [hressame]
    by_cases h2 : m = w.nodes.length
    · subst h2
      rw [resultsAt, nodeD, List.getElem?_eq_none le_rfl]
      simp
    · rw [hstartsame m h2]
      exact hinv.slice m (by omega)
  · intro m p k hm hsrc
    rw [hlen] at hm
    simp only [reduceCtorEq, if_false, Nat.add_zero]
    by_cases h2 : m = w.nodes.length
    · subst h2
      rw [srcAt, hnew] at hsrc
      have hpk : p = n ∧ k = nd.offsets.length := by simpa using hsrc.symm
      obtain ⟨hp, hk⟩ := hpk
      subst hp; subst hk
      rw [hressame, resultsAt, nodeD, List.getElem?_eq_none le_rfl, startAt, hnew,
        hoffnewkey, hstartsame p (by omega), startAt_of_mem hnd]
      simp
    · rw [hsrcsame m h2] at hsrc
      have hmlt : m < w.nodes.length := by omega
      have halign := hinv.align m p k hmlt hsrc
      simp only [reduceCtorEq, if_false, Nat.add_zero] at halign
      rw [hressame, hstartsame m h2]
      obtain ⟨p0, k0, hpk0, hp0, hk10, hk20⟩ :=
        hinv.srcOk m (Nat.pos_of_ne_zero (srcAt_ne_zero hinv (by simp [hsrc]))) hmlt
      rw [hsrc] at hpk0
      have h3 : p = p0 ∧ k = k0 := by simpa using hpk0
      obtain ⟨hp3, hk3⟩ := h3
      subst hp3; subst hk3
      have hplt : p < w.nodes.length := by omega
      rw [hstartsame p (by omega)]
      by_cases h4 : p = n
      · subst h4
        rw [offsetsAt_of_mem hnd] at hk20
        rw [hoffn k hk20]
        exact halign
      · rw [hoffsame p k h4]
        exact halign
  · intro m hm
    rw [hlen] at hm
    rw [hgensame, hressame]
    by_cases h2 : m = w.nodes.length
    · subst h2
      rw [genDoneAt, nodeD, List.getElem?_eq_none le_rfl]
      intro hc
      cases hc
    · rw [hstartsame m h2]
      exact hinv.doneOk m (by omega)

/-- Everything a trace needs to know about `use` on a valid node: it returns
the next free index, appends one fresh cursor entry on the receiver plus one
fresh empty child node starting at the receiver's own start, preserves the
invariant, and disturbs no existing offset, memo, start or completion flag. -/
theorem use_spec {V : List α} {w : World α σ} {n : Nat} {nd : NodeData α}
    (hinv : Inv V w) (hnd : w.nodes[n]? = some nd) :
    (use w n).2 = w.nodes.length ∧
    (use w n).1.nodes.length = w.nodes.length + 1 ∧
    Inv V (use w n).1 ∧
    (∀ m j, offAt (use w n).1 m j = offAt w m j) ∧
    (∀ m, m ≠ w.nodes.length → startAt (use w n).1 m = startAt w m) ∧
    startAt (use w n).1 w.nodes.length = startAt w n ∧
    (∀ m, resultsAt (use w n).1 m = resultsAt w m) ∧
    srcAt (use w n).1 w.nodes.length = some (n, (offsetsAt w n).length) ∧
    (∀ m, genDoneAt (use w n).1 m = genDoneAt w m) ∧
    (offsetsAt (use w n).1 n).length = (offsetsAt w n).length + 1 := by
  have hn := lt_length_of_mem hnd
  rw [use_eq hnd]
  refine ⟨rfl, by simp [List.length_set], ?_, ?_, ?_, ?_, ?_, ?_, ?_, ?_⟩
  · have := grow_inv hinv hnd 0 (Nat.zero_le _)
    simpa using this
  · intro m j
    by_cases h1 : m = n
    · subst h1
      rw [offAt, offsetsAt, nodeD_grow_self hn, offAt_of_mem hnd]
      exact getD_append_zero nd.offsets j
    · by_cases h2 : m = w.nodes.length
      · subst h2
        rw [offAt, offsetsAt, nodeD_grow_new, offAt, offsetsAt, nodeD,
          List.getElem?_eq_none le_rfl]
        cases j with
        | zero => rfl
        | succ j => simp [List.getD]
      · rw [offAt, offsetsAt, nodeD_grow_old h1 h2, offAt, offsetsAt]
  · intro m h2
    by_cases h1 : m = n
    · subst h1
      rw [startAt, nodeD_grow_self hn, startAt, nodeD_eq_of_mem hnd]
    · rw [startAt, nodeD_grow_old h1 h2, startAt]
  · rw [startAt, nodeD_grow_new, startAt, nodeD_eq_of_mem hnd]
  · intro m
    by_cases h1 : m = n
    · subst h1
      rw [resultsAt, nodeD_grow_self hn, resultsAt, nodeD_eq_of_mem hnd]
    · by_cases h2 : m = w.nodes.length
      · subst h2
        rw [resultsAt, nodeD_grow_new, resultsAt, nodeD, List.getElem?_eq_none le_rfl]
        rfl
      · rw [resultsAt, nodeD_grow_old h1 h2, resultsAt]
  · rw [srcAt, nodeD_grow_new, offsetsAt_of_mem hnd]
  · intro m
    by_cases h1 : m = n
    · subst h1
      rw [genDoneAt, nodeD_grow_self hn, genDoneAt, nodeD_eq_of_mem hnd]
    · by_cases h2 : m = w.nodes.length
      · subst h2
        rw [genDoneAt, nodeD_grow_new, genDoneAt, nodeD, List.getElem?_eq_none le_rfl]
        rfl
      · rw [genDoneAt, nodeD_grow_old h1 h2, genDoneAt]
  · rw [offsetsAt, nodeD_grow_self hn, offsetsAt_of_mem hnd]
    simp

/-- Everything a trace needs to know about `rest` on a valid node: it is
`use` except that the fresh parent-side entry is registered at
`this.results.length` and the child's ghost start records that base. -/
theorem rest_spec {V : List α} {w : World α σ} {n : Nat} {nd : NodeData α}
    (hinv : Inv V w) (hnd : w.nodes[n]? = some nd) :
    (rest w n).2 = w.nodes.length ∧
    (rest w n).1.nodes.length = w.nodes.length + 1 ∧
    Inv V (rest w n).1 ∧
    (∀ m j, ¬(m = n ∧ j = (offsetsAt w n).length) →
      offAt (rest w n).1 m j = offAt w m j) ∧
    offAt (rest w n).1 n (offsetsAt w n).length = (resultsAt w n).length ∧
    (∀ m, m ≠ w.nodes.length → startAt (rest w n).1 m = startAt w m) ∧
    startAt (rest w n).1 w.nodes.length = startAt w n + (resultsAt w n).length ∧
    (∀ m, resultsAt (rest w n).1 m = resultsAt w m) ∧
    srcAt (rest w n).1 w.nodes.length = some (n, (offsetsAt w n).length) ∧
    (∀ m, genDoneAt (rest w n).1 m = genDoneAt w m) := by
  have hn := lt_length_of_mem hnd
  rw [rest_eq hnd]
  refine ⟨rfl, by simp [List.length_set], ?_, ?_, ?_, ?_, ?_, ?_, ?_, ?_⟩
  · exact grow_inv hinv hnd nd.results.length le_rfl
  · intro m j hmj
    by_cases h1 : m = n
    · subst h1
      have hj : j ≠ (offsetsAt w m).length := fun hj => hmj ⟨rfl, hj⟩
      rw [offsetsAt_of_mem hnd] at hj
      rw [offAt, offsetsAt, nodeD_grow_self hn, offAt_of_mem hnd]
      rcases lt_or_gt_of_ne hj with hjlt | hjgt
      · exact getD_append_lt hjlt
      · rw [getD_of_length_le (by simp; omega), getD_of_length_le (by omega)]
    · by_cases h2 : m = w.nodes.length
      · subst h2
        rw [offAt, offsetsAt, nodeD_grow_new, offAt, offsetsAt, nodeD,
          List.getElem?_eq_none le_rfl]
        cases j with
        | zero => rfl
        | succ j => simp [List.getD]
      · rw [offAt, offsetsAt, nodeD_grow_old h1 h2, offAt, offsetsAt]
  · rw [offAt, offsetsAt, nodeD_grow_self hn, offsetsAt_of_mem hnd,
      resultsAt_of_mem hnd]
    exact getD_append_length
  · intro m h2
    by_cases h1 : m = n
    · subst h1
      rw [startAt, nodeD_grow_self hn, startAt, nodeD_eq_of_mem hnd]
    · rw [startAt, nodeD_grow_old h1 h2, startAt]
  · rw [startAt, nodeD_grow_new, startAt, nodeD_eq_of_mem hnd,
      resultsAt_of_mem hnd]
  · intro m
    by_cases h1 : m = n
    · subst h1
      rw [resultsAt, nodeD_grow_self hn, resultsAt, nodeD_eq_of_mem hnd]
    · by_cases h2 : m = w.nodes.length
      · subst h2
        rw [resultsAt, nodeD_grow_new, resultsAt, nodeD, List.getElem?_eq_none le_rfl]
        rfl
      · rw [resultsAt, nodeD_grow_old h1 h2, resultsAt]
  · rw [srcAt, nodeD_grow_new, offsetsAt_of_mem hnd]
  · intro m
    by_cases h1 : m = n
    · subst h1
      rw [genDoneAt, nodeD_grow_self hn, genDoneAt, nodeD_eq_of_mem hnd]
    · by_cases h2 : m = w.nodes.length
      · subst h2
        rw [genDoneAt, nodeD_grow_new, genDoneAt, nodeD, List.getElem?_eq_none le_rfl]
        rfl
      · rw [genDoneAt, nodeD_grow_old h1 h2, genDoneAt]

/-! ### Traces and the observation characterization -/

theorem request_ge {w : World α σ} {n : Nat} (hn : w.nodes.length ≤ n) (id : Nat) :
    request w n id = (.done, w) := by
  simp only [request, requestAux, List.getElem?_eq_none hn]

theorem key_ne_zero {V : List α} {w : World α σ} (hinv : Inv V w) (m : Nat) :
    ∀ c, c < w.nodes.length → srcAt w c ≠ some (m, 0) := by
  intro c hc hsrc
  have hc0 : c ≠ 0 := srcAt_ne_zero hinv (by simp [hsrc])
  obtain ⟨p, k, hpk, _, hk1, _⟩ := hinv.srcOk c (Nat.pos_of_ne_zero hc0) hc
  rw [hsrc] at hpk
  have h2 : m = p ∧ 0 = k := by simpa using hpk
  omega

theorem countSteps_cons_self (t : List Op) (m : Nat) :
    countSteps (Op.step m :: t) m = countSteps t m + 1 := by
  simp [countSteps, List.filter_cons]

theorem countSteps_cons_other {op : Op} {m : Nat} (h : op ≠ Op.step m) (t : List Op) :
    countSteps (op :: t) m = countSteps t m := by
  simp only [countSteps, List.filter_cons, beq_iff_eq, if_neg h]

theorem obs_cons_use (w : World α σ) (n : Nat) (t : List Op) (m : Nat) :
    obs w (Op.use n :: t) m = obs (use w n).1 t m := rfl

theorem obs_cons_rest (w : World α σ) (n : Nat) (t : List Op) (m : Nat) :
    obs w (Op.rest n :: t) m = obs (rest w n).1 t m := rfl

theorem obs_cons_step_self (w : World α σ) (t : List Op) (m : Nat) :
    obs w (Op.step m :: t) m = (next w m).1 :: obs (next w m).2 t m := by
  simp [obs, runOut, List.filter_cons]

theorem obs_cons_step_other (w : World α σ) {n m : Nat} (h : n ≠ m) (t : List Op) :
    obs w (Op.step n :: t) m = obs (next w n).2 t m := by
  simp [obs, runOut, List.filter_cons, h]

/-- The observations of the handle of node `m` along an arbitrary interleaved
trace: writing `pos` for the handle's absolute position `startAt + offAt` and
`c` for the number of times the trace steps the handle, the handle observes
exactly the values of `V` from `pos` on, in order, followed by exhaustion on
every further step.  Every other operation in the trace — creating cursors
anywhere and stepping any other handle — leaves this unchanged. -/
theorem obsChar {V : List α} :
    ∀ (t : List Op) (w : World α σ) (m : Nat), Inv V w → m < w.nodes.length →
      obs w t m =
        ((V.drop (startAt w m + offAt w m 0)).take (countSteps t m)).map PullResult.val ++
        List.replicate (countSteps t m - (V.length - (startAt w m + offAt w m 0)))
          PullResult.done := by
  intro t
  induction t with
  | nil =>
    intro w m _ _
    simp [obs, runOut, countSteps]
  | cons op t ih =>
    intro w m hinv hm
    cases op with
    | use n =>
      rw [obs_cons_use, countSteps_cons_other (by simp) t]
      by_cases hn : n < w.nodes.length
      · obtain ⟨_, hlen, hinv', hoffP, hstartP, _, _, _, _, _⟩ :=
          use_spec hinv (nodes_getElem?_eq_some hn)
        have hm' : m < (use w n).1.nodes.length := by omega
        rw [ih (use w n).1 m hinv' hm', hoffP, hstartP m (by omega)]
      · rw [use_ge (Nat.le_of_not_lt hn)]
        exact ih w m hinv hm
    | rest n =>
      rw [obs_cons_rest, countSteps_cons_other (by simp) t]
      by_cases hn : n < w.nodes.length
      · obtain ⟨_, hlen, hinv', hoffP, _, hstartP, _, _, _, _⟩ :=
          rest_spec hinv (nodes_getElem?_eq_some hn)
        have hm' : m < (rest w n).1.nodes.length := by omega
        have hkey : ¬(m = n ∧ 0 = (offsetsAt w n).length) := by
          intro hc
          have := hinv.offsNe n hn
          omega
        rw [ih (rest w n).1 m hinv' hm', hoffP m 0 hkey, hstartP m (by omega)]
      · rw [rest_ge (Nat.le_of_not_lt hn)]
        exact ih w m hinv hm
    | step n =>
      by_cases hnm : n = m
      · subst hnm
        rw [obs_cons_step_self, countSteps_cons_self]
        simp only [next]
        have hid : 0 < (offsetsAt w n).length := hinv.offsNe n hm
        have hpost := reqChar (i := 0) hinv hm hid
        have hframe : FrameRel w (request w n 0).2 := request_frame w n 0
        have hlen : (request w n 0).2.nodes.length = w.nodes.length := hframe.1
        have hstartF : startAt (request w n 0).2 n = startAt w n := (hframe.2.2 n).2.1
        have hm' : n < (request w n 0).2.nodes.length := by omega
        rcases Nat.lt_or_ge (startAt w n + offAt w n 0) V.length with hlt | hge
        · obtain ⟨⟨a, hVa, hfst⟩, hoff1, _, _, hinvE⟩ := hpost.1 hlt
          have hinv' : Inv V (request w n 0).2 := invC_zero_key hinvE
          rw [ih (request w n 0).2 n hinv' hm', hstartF, hoff1, hfst]
          obtain ⟨hvl, hva⟩ := List.getElem?_eq_some.mp hVa
          have hdropc : V.drop (startAt w n + offAt w n 0) =
              V[startAt w n + offAt w n 0] :: V.drop (startAt w n + offAt w n 0 + 1) :=
            List.drop_eq_getElem_cons hvl
          have hcnt : countSteps t n + 1 - (V.length - (startAt w n + offAt w n 0)) =
              countSteps t n - (V.length - (startAt w n + offAt w n 0 + 1)) := by
            omega
          rw [hcnt, hdropc, List.take_succ_cons, List.map_cons, List.cons_append, hva,
            ← Nat.add_assoc]
        · obtain ⟨hfst, _, hoffs', hinv'⟩ := hpost.2 hge
          have hoff0 : offAt (request w n 0).2 n 0 = offAt w n 0 := by
            rw [offAt, hoffs' n, offAt]
          rw [ih (request w n 0).2 n hinv' hm', hstartF, hoff0, hfst]
          simp only [List.drop_eq_nil_of_le hge, List.take_nil, List.map_nil,
            List.nil_append]
          have h0 : V.length - (startAt w n + offAt w n 0) = 0 := by omega
          rw [h0, Nat.sub_zero, Nat.sub_zero, List.replicate_succ]
      · rw [obs_cons_step_other w hnm, countSteps_cons_other (by simp [hnm]) t]
        simp only [next]
        by_cases hn : n < w.nodes.length
        · have hid : 0 < (offsetsAt w n).length := hinv.offsNe n hn
          have hpost := reqChar (i := 0) hinv hn hid
          have hframe : FrameRel w (request w n 0).2 := request_frame w n 0
          have hlen : (request w n 0).2.nodes.length = w.nodes.length := hframe.1
          have hstartF : startAt (request w n 0).2 m = startAt w m := (hframe.2.2 m).2.1
          have hm' : m < (request w n 0).2.nodes.length := by omega
          rcases Nat.lt_or_ge (startAt w n + offAt w n 0) V.length with hlt | hge
          · obtain ⟨_, _, _, hoffO, hinvE⟩ := hpost.1 hlt
            have hinv' : Inv V (request w n 0).2 := invC_zero_key hinvE
            have hoffm : offAt (request w n 0).2 m 0 = offAt w m 0 :=
              hoffO m 0 (fun hc => hnm hc.1.symm) (key_ne_zero hinv m)
            rw [ih (request w n 0).2 m hinv' hm', hstartF, hoffm]
          · obtain ⟨_, _, hoffs', hinv'⟩ := hpost.2 hge
            have hoffm : offAt (request w n 0).2 m 0 = offAt w m 0 := by
              rw [offAt, hoffs' m, offAt]
            rw [ih (request w n 0).2 m hinv' hm', hstartF, hoffm]
        · rw [request_ge (Nat.le_of_not_lt hn) 0]
          exact ih w m hinv hm

theorem next_inv {V : List α} {w : World α σ} (hinv : Inv V w) (n : Nat) :
    Inv V (next w n).2 := by
  by_cases hn : n < w.nodes.length
  · have hpost := reqChar (i := 0) hinv hn (hinv.offsNe n hn)
    rcases Nat.lt_or_ge (startAt w n + offAt w n 0) V.length with hlt | hge
    · exact invC_zero_key (hpost.1 hlt).2.2.2.2
    · exact (hpost.2 hge).2.2.2
  · rw [next, request_ge (Nat.le_of_not_lt hn)]
    exact hinv

theorem use_inv {V : List α} {w : World α σ} (hinv : Inv V w) (n : Nat) :
    Inv V (use w n).1 := by
  by_cases hn : n < w.nodes.length
  · exact (use_spec hinv (nodes_getElem?_eq_some hn)).2.2.1
  · rw [use_ge (Nat.le_of_not_lt hn)]
    exact hinv

theorem rest_inv {V : List α} {w : World α σ} (hinv : Inv V w) (n : Nat) :
    Inv V (rest w n).1 := by
  by_cases hn : n < w.nodes.length
  · exact (rest_spec hinv (nodes_getElem?_eq_some hn)).2.2.1
  · rw [rest_ge (Nat.le_of_not_lt hn)]
    exact hinv

/-- Every world reachable from an invariant-holding world keeps the invariant. -/
theorem runOut_inv {V : List α} :
    ∀ (t : List Op) (w : World α σ), Inv V w → Inv V (runOut w t).1 := by
  intro t
  induction t with
  | nil => intro w h; exact h
  | cons op t ih =>
    intro w hinv
    cases op with
    | use n => exact ih _ (use_inv hinv n)
    | rest n => exact ih _ (rest_inv hinv n)
    | step n => exact ih _ (next_inv hinv n)

/-- A trace that never steps a given handle leaves that handle's ghost start
and primary offset untouched (and the handle stays a valid node). -/
theorem runOut_frame {V : List α} :
    ∀ (t : List Op) (w : World α σ) (m : Nat), Inv V w → m < w.nodes.length →
      (∀ op ∈ t, op ≠ Op.step m) →
      m < (runOut w t).1.nodes.length ∧
      startAt (runOut w t).1 m = startAt w m ∧
      offAt (runOut w t).1 m 0 = offAt w m 0 := by
  intro t
  induction t with
  | nil => intro w m _ hm _; exact ⟨hm, rfl, rfl⟩
  | cons op t ih =>
    intro w m hinv hm hops
    have hops' : ∀ op ∈ t, op ≠ Op.step m := fun o ho => hops o (List.mem_cons_of_mem _ ho)
    cases op with
    | use n =>
      simp only [runOut]
      by_cases hn : n < w.nodes.length
      · obtain ⟨_, hlen, hinv', hoffP, hstartP, _, _, _, _, _⟩ :=
          use_spec hinv (nodes_getElem?_eq_some hn)
        obtain ⟨h1, h2, h3⟩ := ih (use w n).1 m hinv' (by omega) hops'
        exact ⟨h1, h2.trans (hstartP m (by omega)), h3.trans (hoffP m 0)⟩
      · rw [use_ge (Nat.le_of_not_lt hn)]
        exact ih w m hinv hm hops'
    | rest n =>
      simp only [runOut]
      by_cases hn : n < w.nodes.length
      · obtain ⟨_, hlen, hinv', hoffP, _, hstartP, _, _, _, _⟩ :=
          rest_spec hinv (nodes_getElem?_eq_some hn)
        obtain ⟨h1, h2, h3⟩ := ih (rest w n).1 m hinv' (by omega) hops'
        have hkey : ¬(m = n ∧ 0 = (offsetsAt w n).length) := by
          intro hc
          have := hinv.offsNe n hn
          omega
        exact ⟨h1, h2.trans (hstartP m (by omega)), h3.trans (hoffP m 0 hkey)⟩
      · rw [rest_ge (Nat.le_of_not_lt hn)]
        exact ih w m hinv hm hops'
    | step n =>
      simp only [runOut]
      have hnm : n ≠ m := by
        intro hc
        exact hops (Op.step n) (List.mem_cons_self _ _) (by rw [hc])
      by_cases hn : n < w.nodes.length
      · have hpost := reqChar (i := 0) hinv hn (hinv.offsNe n hn)
        have hframe : FrameRel w (request w n 0).2 := request_frame w n 0
        have hinv' : Inv V (next w n).2 := next_inv hinv n
        have hoffm : offAt (request w n 0).2 m 0 = offAt w m 0 := by
          rcases Nat.lt_or_ge (startAt w n + offAt w n 0) V.length with hlt | hge
          · exact (hpost.1 hlt).2.2.2.1 m 0 (fun hc => hnm hc.1.symm) (key_ne_zero hinv m)
          · rw [offAt, ((hpost.2 hge).2.2.1) m, offAt]
        obtain ⟨h1, h2, h3⟩ := ih (next w n).2 m hinv'
          (by have := hframe.1; simp only [next]; omega) hops'
        refine ⟨h1, ?_, ?_⟩
        · rw [h2]
          show startAt (request w n 0).2 m = startAt w m
          exact (hframe.2.2 m).2.1
        · rw [h3]
          exact hoffm
      · have heq : next w n = (.done, w) := request_ge (Nat.le_of_not_lt hn) 0
        rw [heq]
        exact ih w m hinv hm hops'

/-- The invariant holds of a freshly wrapped list. -/
theorem initWorld_inv (V : List α) : Inv V (initWorld V) := by
  refine ⟨by simp [initWorld], rfl, rfl, ?_, ?_, ?_, ?_, ?_, ?_, ?_, ?_⟩
  · show Produces listNext V (V.drop (resultsAt (initWorld V) 0).length)
    have : resultsAt (initWorld V) 0 = [] := rfl
    rw [this]
    simpa using listNext_produces V
  · intro m hm0 hm
    simp [initWorld] at hm
    omega
  · intro n hn
    simp [initWorld] at hn
    subst hn
    simp [offsetsAt, nodeD, initWorld]
  · intro m m' hm hm' hne _
    simp [initWorld] at hm hm'
    subst hm; subst hm'
    rfl
  · intro n id hn
    simp [initWorld] at hn
    subst hn
    show (([0] : List Nat).getD id 0) ≤ ([] : List α).length
    cases id with
    | zero => simp
    | succ j => simp [List.getD]
  · intro n hn
    simp [initWorld] at hn
    subst hn
    rfl
  · intro m p k hm hsrc
    simp [initWorld] at hm
    subst hm
    simp [srcAt, nodeD, initWorld] at hsrc
  · intro m hm hgd
    simp [initWorld] at hm
    subst hm
    simp [genDoneAt, nodeD, initWorld] at hgd

/-- The entry of the observation formula at a stepped position depends only on
the position: the value of `V` there, or exhaustion past the end. -/
theorem formula_getElem (V : List α) (c i : Nat) (hi : i < c) :
    (((V.take c).map PullResult.val) ++
      List.replicate (c - V.length) PullResult.done)[i]? =
    (if h : i < V.length then some (.val (V.get ⟨i, h⟩)) else some .done) := by
  by_cases h : i < V.length
  · rw [dif_pos h]
    rw [List.getElem?_append_left (by simp [List.length_take]; omega)]
    rw [List.getElem?_map, List.getElem?_take, if_pos hi, List.getElem?_eq_getElem h]
    rfl
  · rw [dif_neg h]
    have hLc : V.length < c := by omega
    rw [List.getElem?_append_right (by simp [List.length_take]; omega)]
    rw [List.getElem?_replicate]
    rw [if_pos (by simp [List.length_take]; omega)]

/-- Two positions equal and two invariants give the same next-step result. -/
theorem next_fst_eq {V : List α} {w w' : World α σ} {n : Nat}
    (hinv : Inv V w) (hinv' : Inv V w')
    (hn : n < w.nodes.length) (hn' : n < w'.nodes.length)
    (hstart : startAt w' n = startAt w n) (hoff : offAt w' n 0 = offAt w n 0) :
    (next w' n).1 = (next w n).1 := by
  have h1 := reqChar (i := 0) hinv hn (hinv.offsNe n hn)
  have h2 := reqChar (i := 0) hinv' hn' (hinv'.offsNe n hn')
  rcases Nat.lt_or_ge (startAt w n + offAt w n 0) V.length with hlt | hge
  · obtain ⟨⟨a, hVa, hfst⟩, _⟩ := h1.1 hlt
    obtain ⟨⟨a', hVa', hfst'⟩, _⟩ := h2.1 (by rw [hstart, hoff]; exact hlt)
    rw [hstart, hoff] at hVa'
    rw [hVa] at hVa'
    obtain rfl : a = a' := by simpa using hVa'
    show (request w' n 0).1 = (request w n 0).1
    rw [hfst, hfst']
  · have hd1 := (h1.2 hge).1
    have hd2 := (h2.2 (by rw [hstart, hoff]; exact hge)).1
    show (request w' n 0).1 = (request w n 0).1
    rw [hd1, hd2]

/-! ### The instrumented producer: counting invariant -/

/-- Invariant of worlds over the instrumented producer: the number of
value-returning producer invocations is exactly the length of the root memo,
and the producer still holds exactly the unproduced suffix. -/
structure CInv (V : List α) (w : World α (CState α)) : Prop where
  ne : 0 < w.nodes.length
  rootSrc : srcAt w 0 = none
  srcSome : ∀ m, 0 < m → m < w.nodes.length → ∃ p k, srcAt w m = some (p, k) ∧ p < m
  pnext : w.prodNext = countNext
  remSync : w.prodState.remaining = V.drop (resultsAt w 0).length
  valSync : w.prodState.vals = (resultsAt w 0).length

theorem cinv_wSet {V : List α} {w : World α (CState α)} {n : Nat} {nd nd' : NodeData α}
    (hinv : CInv V w) (hnd : w.nodes[n]? = some nd)
    (hsrc : nd'.src = nd.src)
    (hres : nd'.results = nd.results ∨ n ≠ 0) :
    CInv V (wSet w n nd') := by
  have hres0 : resultsAt (wSet w n nd') 0 = resultsAt w 0 := by
    rcases hres with h | h
    · exact resultsAt_wSet_pres hnd h 0
    · exact resultsAt_wSet_ne h
  refine ⟨?_, ?_, ?_, ?_, ?_, ?_⟩
  · rw [nodes_length_wSet]; exact hinv.ne
  · rw [srcAt_wSet_pres hnd hsrc]; exact hinv.rootSrc
  · intro m hm0 hm
    rw [nodes_length_wSet] at hm
    obtain ⟨p, k, hpk, hp⟩ := hinv.srcSome m hm0 hm
    exact ⟨p, k, (srcAt_wSet_pres hnd hsrc m).symm ▸ hpk, hp⟩
  · rw [prodNext_wSet]; exact hinv.pnext
  · show w.prodState.remaining = V.drop (resultsAt _ 0).length
    rw [hres0]
    exact hinv.remSync
  · show w.prodState.vals = (resultsAt _ 0).length
    rw [hres0]
    exact hinv.valSync

theorem cinv_request {V : List α} :
    ∀ (fuel : Nat) (w : World α (CState α)) (n id : Nat), CInv V w →
      CInv V (requestAux fuel w n id).2 := by
  intro fuel
  induction fuel with
  | zero => intro w n id h; exact h
  | succ f ih =>
    intro w n id hinv
    simp only [requestAux]
    split
    · exact hinv
    · rename_i nd hnd
      have hn : n < w.nodes.length := lt_length_of_mem hnd
      split
      · split
        · rename_i hsrcnone
          have hn0 : n = 0 := by
            by_contra h0
            obtain ⟨p, k, hpk, _⟩ := hinv.srcSome n (Nat.pos_of_ne_zero h0) hn
            rw [srcAt_of_mem hnd, hsrcnone] at hpk
            cases hpk
          subst hn0
          have hres0 : resultsAt w 0 = nd.results := resultsAt_of_mem hnd
          split
          · rename_i a s heqp
            rw [hinv.pnext] at heqp
            have hcase : w.prodState.remaining = a :: s.remaining ∧
                s.vals = w.prodState.vals + 1 := by
              rcases hps : w.prodState with ⟨rem, c, v⟩
              rw [hps] at heqp
              cases rem with
              | nil => simp [countNext] at heqp
              | cons b rem' =>
                simp only [countNext, Prod.mk.injEq, PullResult.val.injEq] at heqp
                obtain ⟨hab, hs⟩ := heqp
                subst hab
                rw [← hs]
                exact ⟨rfl, rfl⟩
            obtain ⟨hrem, hvals⟩ := hcase
            have hnd2 : ({ w with prodState := s } :
                World α (CState α)).nodes[0]? = some nd := hnd
            have hpsrc : (pushVal nd id (nd.offsets.getD id 0) a).src = nd.src := rfl
            dsimp only
            refine ⟨?_, ?_, ?_, ?_, ?_, ?_⟩
            · rw [nodes_length_wSet]; exact hinv.ne
            · rw [srcAt_wSet_pres hnd2 hpsrc]; exact hinv.rootSrc
            · intro m hm0 hm
              rw [nodes_length_wSet] at hm
              obtain ⟨p, k, hpk, hp⟩ := hinv.srcSome m hm0 hm
              exact ⟨p, k, (srcAt_wSet_pres hnd2 hpsrc m).symm ▸ hpk, hp⟩
            · rw [prodNext_wSet]; exact hinv.pnext
            · show s.remaining = V.drop (resultsAt _ 0).length
              rw [resultsAt_wSet_self (w := { w with prodState := s }) hn]
              have h1 := hinv.remSync
              rw [hres0] at h1
              have h2 : (V.drop nd.results.length).tail = s.remaining := by
                rw [← h1, hrem]
                rfl
              have h3 : (pushVal nd id (nd.offsets.getD id 0) a).results.length
                  = nd.results.length + 1 := by simp [pushVal]
              rw [h3, ← h2, List.tail_drop]
            · show s.vals = (resultsAt _ 0).length
              rw [resultsAt_wSet_self (w := { w with prodState := s }) hn]
              have h3 : (pushVal nd id (nd.offsets.getD id 0) a).results.length
                  = nd.results.length + 1 := by simp [pushVal]
              rw [h3, hvals, hinv.valSync, hres0]
          · rename_i s heqp
            rw [hinv.pnext] at heqp
            have hcase : w.prodState.remaining = [] ∧ s.remaining = [] ∧
                s.vals = w.prodState.vals := by
              rcases hps : w.prodState with ⟨rem, c, v⟩
              rw [hps] at heqp
              cases rem with
              | nil =>
                simp only [countNext, Prod.mk.injEq] at heqp
                rw [← heqp.2]
                exact ⟨rfl, rfl, rfl⟩
              | cons b rem' => simp [countNext] at heqp
            obtain ⟨hrem0, hsrem, hsv⟩ := hcase
            dsimp only
            refine ⟨hinv.ne, hinv.rootSrc, hinv.srcSome, hinv.pnext, ?_, ?_⟩
            · show s.remaining = V.drop (resultsAt w 0).length
              have h1 := hinv.remSync
              rw [hrem0] at h1
              rw [hsrem, h1]
            · show s.vals = (resultsAt w 0).length
              rw [hsv, hinv.valSync]
          · rename_i s heqp
            rw [hinv.pnext] at heqp
            exfalso
            rcases hps : w.prodState with ⟨rem, c, v⟩
            rw [hps] at heqp
            cases rem <;> simp [countNext] at heqp
        · rename_i p k hsrck
          split
          · exact hinv
          · split
            · rename_i hgd hpn
              have hinv1 : CInv V (requestAux f w p k).2 := ih w p k hinv
              have hframe : FrameRel w (requestAux f w p k).2 := requestAux_frame f w p k
              have hn0 : n ≠ 0 := by
                intro h0
                have h1 := hinv.rootSrc
                rw [srcAt_of_mem (h0 ▸ hnd), hsrck] at h1
                cases h1
              have hnd1 : (requestAux f w p k).2.nodes[n]? = some nd := by
                have hh : nodeD (requestAux f w p k).2 n = nodeD w n :=
                  requestAux_nodeD_high f w p k n hpn
                have hn1 : n < (requestAux f w p k).2.nodes.length := by
                  rw [hframe.1]; exact hn
                rw [nodes_getElem?_eq_some hn1, hh, nodeD_eq_of_mem hnd]
              split
              · rename_i a w1 heqr
                rw [heqr] at hinv1 hnd1
                exact cinv_wSet hinv1 hnd1 rfl (Or.inr hn0)
              · rename_i w1 heqr
                rw [heqr] at hinv1 hnd1
                exact cinv_wSet hinv1 hnd1 rfl (Or.inr hn0)
              · rename_i w1 heqr
                rw [heqr] at hinv1 hnd1
                exact cinv_wSet hinv1 hnd1 rfl (Or.inr hn0)
            · exact hinv
      · split
        · rename_i a heqc
          exact cinv_wSet hinv hnd rfl (Or.inl rfl)
        · exact hinv

/-! ### The counting invariant through `use`, `rest` and whole traces -/

theorem use_prodState (w : World α σ) (n : Nat) : (use w n).1.prodState = w.prodState := by
  simp only [use]
  split <;> rfl

theorem use_prodNext (w : World α σ) (n : Nat) : (use w n).1.prodNext = w.prodNext := by
  simp only [use]
  split <;> rfl

theorem rest_prodState (w : World α σ) (n : Nat) : (rest w n).1.prodState = w.prodState := by
  simp only [rest]
  split <;> rfl

theorem rest_prodNext (w : World α σ) (n : Nat) : (rest w n).1.prodNext = w.prodNext := by
  simp only [rest]
  split <;> rfl

/-- On a world that satisfies the plain reachability invariant, the counting
invariant reduces to its three producer-side components. -/
theorem cinv_of_inv {V : List α} {w : World α (CState α)} (hinv : Inv V w)
    (hpn : w.prodNext = countNext)
    (hrem : w.prodState.remaining = V.drop (resultsAt w 0).length)
    (hval : w.prodState.vals = (resultsAt w 0).length) : CInv V w := by
  refine ⟨hinv.ne, hinv.rootSrc, ?_, hpn, hrem, hval⟩
  intro m hm0 hm
  obtain ⟨p, k, hpk, hp, -, -⟩ := hinv.srcOk m hm0 hm
  exact ⟨p, k, hpk, hp⟩

theorem cinv_use {V : List α} {w : World α (CState α)}
    (hi : Inv V w) (hc : CInv V w) (n : Nat) : CInv V (use w n).1 := by
  by_cases hn : n < w.nodes.length
  · obtain ⟨-, -, hinv', -, -, -, hresP, -, -, -⟩ :=
      use_spec hi (nodes_getElem?_eq_some hn)
    refine cinv_of_inv hinv' ?_ ?_ ?_
    · rw [use_prodNext]; exact hc.pnext
    · rw [use_prodState, hresP 0]; exact hc.remSync
    · rw [use_prodState, hresP 0]; exact hc.valSync
  · rw [use_ge (Nat.le_of_not_lt hn)]
    exact hc

theorem cinv_rest {V : List α} {w : World α (CState α)}
    (hi : Inv V w) (hc : CInv V w) (n : Nat) : CInv V (rest w n).1 := by
  by_cases hn : n < w.nodes.length
  · obtain ⟨-, -, hinv', -, -, -, -, hresP, -, -⟩ :=
      rest_spec hi (nodes_getElem?_eq_some hn)
    refine cinv_of_inv hinv' ?_ ?_ ?_
    · rw [rest_prodNext]; exact hc.pnext
    · rw [rest_prodState, hresP 0]; exact hc.remSync
    · rw [rest_prodState, hresP 0]; exact hc.valSync
  · rw [rest_ge (Nat.le_of_not_lt hn)]
    exact hc

theorem cinv_next {V : List α} {w : World α (CState α)}
    (hc : CInv V w) (n : Nat) : CInv V (next w n).2 :=
  cinv_request (n + 1) w n 0 hc

theorem cinv_runOut {V : List α} :
    ∀ (t : List Op) (w : World α (CState α)), Inv V w → CInv V w →
      CInv V (runOut w t).1 := by
  intro t
  induction t with
  | nil => intro w _ hc; exact hc
  | cons op t ih =>
    intro w hi hc
    cases op with
    | use n => exact ih _ (use_inv hi n) (cinv_use hi hc n)
    | rest n => exact ih _ (rest_inv hi n) (cinv_rest hi hc n)
    | step n => exact ih _ (next_inv hi n) (cinv_next hc n)

/-- The invariant holds of any fresh root instance whose producer is about to
yield exactly `V`. -/
theorem rootWorld_inv {p : σ → PullResult α × σ} {s : σ} {V : List α}
    (h : Produces p s V) :
    Inv V { prodNext := p, prodState := s,
            nodes := [{ results := [], offsets := [0], src := none,
                        genDone := false, start := 0 }] } := by
  refine ⟨by simp, rfl, rfl, ?_, ?_, ?_, ?_, ?_, ?_, ?_, ?_⟩
  · show Produces p s (V.drop ([] : List α).length)
    simpa using h
  · intro m hm0 hm
    simp at hm
    omega
  · intro n hn
    simp at hn
    subst hn
    show 0 < ([0] : List Nat).length
    simp
  · intro m m' hm hm' hne _
    simp at hm hm'
    subst hm
    subst hm'
    rfl
  · intro n id hn
    simp at hn
    subst hn
    show (([0] : List Nat).getD id 0) ≤ ([] : List α).length
    cases id with
    | zero => simp
    | succ j => simp [List.getD]
  · intro n hn
    simp at hn
    subst hn
    rfl
  · intro m pp k hm hsrc
    simp at hm
    subst hm
    simp [srcAt, nodeD] at hsrc
  · intro m hm hgd
    simp at hm
    subst hm
    simp [genDoneAt, nodeD] at hgd

theorem inv_countInit (V : List α) : Inv V (countInit V) :=
  rootWorld_inv (countNext_produces V 0 0)

theorem cinv_countInit (V : List α) : CInv V (countInit V) := by
  refine cinv_of_inv (inv_countInit V) rfl ?_ ?_
  · show V = V.drop ([] : List α).length
    simp
  · rfl

/-! ### Cached reads never touch the producer -/

/-- A request whose absolute position lies inside the already-populated root
memo is served without invoking the producer and without growing the root
memo. -/
theorem requestAux_cached {V : List α} :
    ∀ (fuel : Nat) (w : World α σ) (n id : Nat), Inv V w →
      startAt w n + offAt w n id < (resultsAt w 0).length →
      (requestAux fuel w n id).2.prodState = w.prodState ∧
      resultsAt (requestAux fuel w n id).2 0 = resultsAt w 0 := by
  intro fuel
  induction fuel with
  | zero => intro w n id _ _; exact ⟨rfl, rfl⟩
  | succ f ih =>
    intro w n id hinv hpos
    simp only [requestAux]
    split
    · exact ⟨rfl, rfl⟩
    · rename_i nd hnd
      have hn : n < w.nodes.length := lt_length_of_mem hnd
      split
      · rename_i hfront
        split
        · rename_i hsrcnone
          exfalso
          have hn0 : n = 0 :=
            src_none_eq_zero hinv hn (by rw [srcAt_of_mem hnd]; exact hsrcnone)
          subst hn0
          rw [hinv.rootStart, offAt_of_mem hnd, resultsAt_of_mem hnd, ← hfront] at hpos
          omega
        · rename_i p k hsrck
          have hn0 : n ≠ 0 :=
            srcAt_ne_zero hinv (by rw [srcAt_of_mem hnd, hsrck]; simp)
          split
          · exact ⟨rfl, rfl⟩
          · split
            · rename_i hgd hpn
              have halign := hinv.align n p k hn (by rw [srcAt_of_mem hnd]; exact hsrck)
              simp only [if_neg (by simp : (none : Option (Nat × Nat)) ≠ some (p, k)),
                Nat.add_zero] at halign
              have hpos' : startAt w p + offAt w p k < (resultsAt w 0).length := by
                rw [← halign, resultsAt_of_mem hnd]
                rw [offAt_of_mem hnd, ← hfront] at hpos
                exact hpos
              have hih := ih w p k hinv hpos'
              split
              · rename_i a w1 heqr
                rw [heqr] at hih
                dsimp only
                refine ⟨?_, ?_⟩
                · rw [prodState_wSet]
                  exact hih.1
                · rw [resultsAt_wSet_ne hn0]
                  exact hih.2
              · rename_i w1 heqr
                rw [heqr] at hih
                dsimp only
                refine ⟨?_, ?_⟩
                · rw [prodState_wSet]
                  exact hih.1
                · rw [resultsAt_wSet_ne hn0]
                  exact hih.2
              · rename_i w1 heqr
                rw [heqr] at hih
                dsimp only
                refine ⟨?_, ?_⟩
                · rw [prodState_wSet]
                  exact hih.1
                · rw [resultsAt_wSet_ne hn0]
                  exact hih.2
            · exact ⟨rfl, rfl⟩
      · split
        · rename_i a heqc
          dsimp only
          refine ⟨?_, ?_⟩
          · rw [prodState_wSet]
          · have hb : (bump nd id (nd.offsets.getD id 0)).results = nd.results := rfl
            exact resultsAt_wSet_pres hnd hb 0
        · exact ⟨rfl, rfl⟩

/-! ### A handle viewed as a producer -/

/-- Iterating `next` on a fixed handle yields the suffix of `V` from the
handle's absolute position, then exhaustion forever. -/
theorem cursorIter {V : List α} :
    ∀ (j : Nat) (w : World α σ) (m : Nat), Inv V w → m < w.nodes.length →
      iterOut (fun w' => next w' m) w j =
        ((V.drop (startAt w m + offAt w m 0)).take j).map PullResult.val ++
        List.replicate (j - (V.length - (startAt w m + offAt w m 0)))
          PullResult.done := by
  intro j
  induction j with
  | zero =>
    intro w m _ _
    simp [iterOut]
  | succ j ih =>
    intro w m hinv hm
    have hpost := reqChar (i := 0) hinv hm (hinv.offsNe m hm)
    have hframe : FrameRel w (request w m 0).2 := request_frame w m 0
    have hm' : m < (request w m 0).2.nodes.length := by
      have := hframe.1
      omega
    have hstartF : startAt (request w m 0).2 m = startAt w m := (hframe.2.2 m).2.1
    show (request w m 0).1 :: iterOut (fun w' => next w' m) (request w m 0).2 j = _
    rcases Nat.lt_or_ge (startAt w m + offAt w m 0) V.length with hlt | hge
    · obtain ⟨⟨a, hVa, hfst⟩, hoff1, -, -, hinvE⟩ := hpost.1 hlt
      have hinv' : Inv V (request w m 0).2 := invC_zero_key hinvE
      rw [ih (request w m 0).2 m hinv' hm', hstartF, hoff1, hfst]
      obtain ⟨hvl, hva⟩ := List.getElem?_eq_some.mp hVa
      have hdropc : V.drop (startAt w m + offAt w m 0) =
          V[startAt w m + offAt w m 0] :: V.drop (startAt w m + offAt w m 0 + 1) :=
        List.drop_eq_getElem_cons hvl
      have hcnt : j + 1 - (V.length - (startAt w m + offAt w m 0)) =
          j - (V.length - (startAt w m + offAt w m 0 + 1)) := by omega
      rw [hcnt, hdropc, List.take_succ_cons, List.map_cons, List.cons_append, hva,
        ← Nat.add_assoc]
    · obtain ⟨hfst, -, hoffs', hinv'⟩ := hpost.2 hge
      have hoff0 : offAt (request w m 0).2 m 0 = offAt w m 0 := by
        rw [offAt, hoffs' m, offAt]
      rw [ih (request w m 0).2 m hinv' hm', hstartF, hoff0, hfst]
      simp only [List.drop_eq_nil_of_le hge, List.take_nil, List.map_nil,
        List.nil_append]
      have h0 : V.length - (startAt w m + offAt w m 0) = 0 := by omega
      rw [h0, Nat.sub_zero, Nat.sub_zero, List.replicate_succ]

theorem cursorProduces {V : List α} {w : World α σ} {m : Nat}
    (hinv : Inv V w) (hm : m < w.nodes.length) :
    Produces (fun w' => next w' m) w (V.drop (startAt w m + offAt w m 0)) := by
  intro j
  rw [cursorIter j w m hinv hm, List.length_drop]

/-! ### The `scanWith` closure as a producer -/

theorem scanNext_step (f : R → α → R) (init : R) (w : World α σ) (m : Nat) :
    scanNext f ⟨init, w, m, false⟩ =
      match next w m with
      | (.val a, w') => (.val (f init a), ⟨f init a, w', m, false⟩)
      | (.done, w') => (.done, ⟨init, w', m, true⟩)
      | (.exn, w') => (.exn, ⟨init, w', m, true⟩) := rfl

theorem scanNext_finished {f : R → α → R} :
    ∀ (j : Nat) (s : ScanSt α σ R), s.finished = true →
      iterOut (scanNext f) s j = List.replicate j PullResult.done := by
  intro j
  induction j with
  | zero => intro s _; rfl
  | succ j ih =>
    intro s hs
    show (scanNext f s).1 :: iterOut (scanNext f) (scanNext f s).2 j = _
    simp only [scanNext, if_pos hs]
    rw [ih s hs, List.replicate_succ]

/-- A scanning closure over a handle that is about to produce `L` produces
exactly the running accumulations of `L` — in particular it never yields the
seed itself, and yields nothing at all on an exhausted handle. -/
theorem scanNext_produces {f : R → α → R} :
    ∀ (L : List α) (init : R) (w : World α σ) (m : Nat),
      Produces (fun w' => next w' m) w L →
      Produces (scanNext f) ⟨init, w, m, false⟩ (scanAccs f init L) := by
  intro L
  induction L with
  | nil =>
    intro init w m hP
    intro j
    cases j with
    | zero => simp [iterOut]
    | succ j =>
      have hfst : (next w m).1 = PullResult.done := by
        simpa using produces_fst hP
      have hnx : next w m = (PullResult.done, (next w m).2) := by
        rw [← hfst]
      have hsn : scanNext f ⟨init, w, m, false⟩ =
          (.done, ⟨init, (next w m).2, m, true⟩) := by
        rw [scanNext_step, hnx]
      show (scanNext f ⟨init, w, m, false⟩).1 ::
          iterOut (scanNext f) (scanNext f ⟨init, w, m, false⟩).2 j = _
      rw [hsn]
      show PullResult.done :: iterOut (scanNext f) ⟨init, (next w m).2, m, true⟩ j = _
      rw [scanNext_finished j _ rfl]
      simp [scanAccs, List.replicate_succ]
  | cons v vs ih =>
    intro init w m hP
    have hfst : (next w m).1 = PullResult.val v := by
      simpa using produces_fst hP
    have hP2 : Produces (fun w' => next w' m) (next w m).2 vs := by
      simpa using produces_rest hP
    have hnx : next w m = (PullResult.val v, (next w m).2) := by
      rw [← hfst]
    intro j
    cases j with
    | zero => simp [iterOut]
    | succ j =>
      have hsn : scanNext f ⟨init, w, m, false⟩ =
          (.val (f init v), ⟨f init v, (next w m).2, m, false⟩) := by
        rw [scanNext_step, hnx]
      show (scanNext f ⟨init, w, m, false⟩).1 ::
          iterOut (scanNext f) (scanNext f ⟨init, w, m, false⟩).2 j = _
      rw [hsn]
      show PullResult.val (f init v) ::
          iterOut (scanNext f) ⟨f init v, (next w m).2, m, false⟩ j = _
      rw [ih (f init v) (next w m).2 m hP2 j]
      simp only [scanAccs, List.take_succ_cons, List.map_cons, List.cons_append,
        List.length_cons, Nat.succ_sub_succ]

/-! ### Claim theorems -/

theorem offAt_ge {w : World α σ} {n : Nat} (hn : w.nodes.length ≤ n) (id : Nat) :
    offAt w n id = 0 := by
  rw [offAt, offsetsAt, nodeD, List.getElem?_eq_none hn]
  simp [List.getD]

/-- C1: Replay invariant.  At any reachable point of any interleaved trace over
a wrapped finite sequence `V`, a cursor freshly obtained by `use()` on the core
observes — along any further trace, which may create more cursors anywhere and
interleave their steps arbitrarily, and counted by its own step count — exactly
the values of `V` in order followed by exhaustion.  Consumed to exhaustion it
therefore yields exactly `V`, and any two `use()` cursors observe the same value
at the same position. -/
theorem claim1_replay_invariant (V : List α) (pre t : List Op) :
    obs (use (runOut (initWorld V) pre).1 0).1 t (use (runOut (initWorld V) pre).1 0).2 =
      ((V.take (countSteps t (use (runOut (initWorld V) pre).1 0).2)).map
        PullResult.val) ++
      List.replicate (countSteps t (use (runOut (initWorld V) pre).1 0).2 - V.length)
        PullResult.done := by
  have hinv : Inv V (runOut (initWorld V) pre).1 := runOut_inv pre _ (initWorld_inv V)
  have h0 : 0 < (runOut (initWorld V) pre).1.nodes.length := hinv.ne
  obtain ⟨hm, hlen, hinv', hoffP, -, hstartN, -, -, -, -⟩ :=
    use_spec hinv (nodes_getElem?_eq_some h0)
  have hmlt : (use (runOut (initWorld V) pre).1 0).2 <
      (use (runOut (initWorld V) pre).1 0).1.nodes.length := by
    rw [hm, hlen]
    omega
  rw [obsChar t _ _ hinv' hmlt, hm, hstartN, hinv.rootStart,
    hoffP (runOut (initWorld V) pre).1.nodes.length 0, offAt_ge le_rfl]
  simp

/-- C3 (counterexample): exhaustion is not cached.  Wrapping the empty sequence
in a core whose producer counts its invocations, the very first step reports
exhaustion after one producer call — yet a second step at the same exhausted
frontier drives the call counter to `2`: the producer is pulled again past the
point it first reported exhaustion, contradicting the claim. -/
theorem claim3_counterexample :
    (runOut (countInit ([] : List Nat)) [Op.step 0]).2 = [(0, PullResult.done)] ∧
    (runOut (countInit ([] : List Nat)) [Op.step 0]).1.prodState.calls = 1 ∧
    (runOut (countInit ([] : List Nat)) [Op.step 0, Op.step 0]).1.prodState.calls = 2 := by
  decide

/-- C3 (amended): once the wrapped sequence is spent, every cursor request at
an absolute position at or past its length returns exhaustion, and the step
leaves every memo list and every descriptor table of the instance graph
unchanged — but exhaustion is not cached: the producer itself may be pulled
again at the frontier (see the counterexample). -/
theorem claim3_exhaustion_sticky (V : List α) (t : List Op) (n : Nat)
    (hge : V.length ≤ startAt (runOut (initWorld V) t).1 n +
      offAt (runOut (initWorld V) t).1 n 0) :
    (next (runOut (initWorld V) t).1 n).1 = PullResult.done ∧
    (∀ m, resultsAt (next (runOut (initWorld V) t).1 n).2 m =
      resultsAt (runOut (initWorld V) t).1 m) ∧
    (∀ m, offsetsAt (next (runOut (initWorld V) t).1 n).2 m =
      offsetsAt (runOut (initWorld V) t).1 m) := by
  have hinv : Inv V (runOut (initWorld V) t).1 := runOut_inv t _ (initWorld_inv V)
  by_cases hn : n < (runOut (initWorld V) t).1.nodes.length
  · obtain ⟨hfst, hres, hoffs, -⟩ :=
      (reqChar (i := 0) hinv hn (hinv.offsNe n hn)).2 hge
    exact ⟨hfst, hres, hoffs⟩
  · rw [next, request_ge (Nat.le_of_not_lt hn) 0]
    exact ⟨rfl, fun m => rfl, fun m => rfl⟩

theorem claim3_witness :
    ([1].length ≤ startAt (runOut (initWorld [1]) [Op.step 0]).1 0 +
      offAt (runOut (initWorld [1]) [Op.step 0]).1 0 0) ∧
    (next (runOut (initWorld [1]) [Op.step 0]).1 0).1 = PullResult.done :=
  ⟨by decide, (claim3_exhaustion_sticky [1] [Op.step 0] 0 (by decide)).1⟩

/-- C5: Fork-from-offset scenario on `[1,2,3]`.  The trace below wraps the
sequence, takes a full cursor (node 1) via `use()`, steps it once (consuming
`1`), forks `rest()` (node 2) which replays exactly `[2,3]` to exhaustion;
forking `rest()` again on the same original cursor after its history was fully
drained by the descendant (node 3) replays nothing; and `use()` on the original
(node 4) still replays the full `[1,2,3]`. -/
theorem claim5_fork_from_offset :
    (runOut (initWorld [1, 2, 3])
      [Op.use 0, Op.step 1, Op.rest 1, Op.step 2, Op.step 2, Op.step 2,
       Op.rest 1, Op.step 3, Op.use 1, Op.step 4, Op.step 4, Op.step 4,
       Op.step 4]).2 =
    [(1, PullResult.val 1),
     (2, PullResult.val 2), (2, PullResult.val 3), (2, PullResult.done),
     (3, PullResult.done),
     (4, PullResult.val 1), (4, PullResult.val 2), (4, PullResult.val 3),
     (4, PullResult.done)] := by
  decide

/-- C9: Offset-bound invariant.  After any sequence of `use()`, `rest()` and
step operations, every recorded cursor offset is at most its node's memo
length; a step at an exhausted absolute position changes neither the stepped
node's memo nor its primary offset; and after any step the stepped node's
offsets are again bounded by its (possibly grown) memo length. -/
theorem claim9_offset_bound (V : List α) (t : List Op) :
    (∀ n id, n < (runOut (initWorld V) t).1.nodes.length →
      offAt (runOut (initWorld V) t).1 n id ≤
        (resultsAt (runOut (initWorld V) t).1 n).length) ∧
    (∀ n, V.length ≤ startAt (runOut (initWorld V) t).1 n +
        offAt (runOut (initWorld V) t).1 n 0 →
      resultsAt (next (runOut (initWorld V) t).1 n).2 n =
        resultsAt (runOut (initWorld V) t).1 n ∧
      offAt (next (runOut (initWorld V) t).1 n).2 n 0 =
        offAt (runOut (initWorld V) t).1 n 0) ∧
    (∀ n id, n < (runOut (initWorld V) t).1.nodes.length →
      offAt (next (runOut (initWorld V) t).1 n).2 n id ≤
        (resultsAt (next (runOut (initWorld V) t).1 n).2 n).length) := by
  have hinv : Inv V (runOut (initWorld V) t).1 := runOut_inv t _ (initWorld_inv V)
  refine ⟨fun n id hn => hinv.offLe n id hn, ?_, ?_⟩
  · intro n hge
    by_cases hn : n < (runOut (initWorld V) t).1.nodes.length
    · obtain ⟨-, hres, hoffs, -⟩ :=
        (reqChar (i := 0) hinv hn (hinv.offsNe n hn)).2 hge
      refine ⟨hres n, ?_⟩
      show offAt (request (runOut (initWorld V) t).1 n 0).2 n 0 =
        offAt (runOut (initWorld V) t).1 n 0
      rw [offAt, hoffs n, offAt]
    · rw [next, request_ge (Nat.le_of_not_lt hn) 0]
      exact ⟨rfl, rfl⟩
  · intro n id hn
    have hinv' : Inv V (next (runOut (initWorld V) t).1 n).2 := next_inv hinv n
    have hframe : FrameRel (runOut (initWorld V) t).1
        (request (runOut (initWorld V) t).1 n 0).2 := request_frame _ n 0
    have hn' : n < (next (runOut (initWorld V) t).1 n).2.nodes.length := by
      have := hframe.1
      show n < (request (runOut (initWorld V) t).1 n 0).2.nodes.length
      omega
    exact hinv'.offLe n id hn'

theorem claim9_witness :
    ([1].length ≤ startAt (runOut (initWorld [1]) [Op.step 0]).1 0 +
      offAt (runOut (initWorld [1]) [Op.step 0]).1 0 0) ∧
    resultsAt (next (runOut (initWorld [1]) [Op.step 0]).1 0).2 0 =
      resultsAt (runOut (initWorld [1]) [Op.step 0]).1 0 :=
  ⟨by decide, ((claim9_offset_bound [1] [Op.step 0]).2.1 0 (by decide)).1⟩

/-- C2: Single-pull guarantee.  Over a core whose producer is instrumented
with invocation counters, after any interleaved trace of cursor creations and
steps the number of value-returning producer invocations equals the length of
the root memo — each populated index cost exactly one pull, made when some
cursor first requested it; and a further step of any cursor whose absolute
position is already populated is served from the memo (it returns the memo
entry at that position) with the producer state, counters included, and the
memo untouched. -/
theorem claim2_single_pull (V : List α) (t : List Op) :
    (runOut (countInit V) t).1.prodState.vals =
      (resultsAt (runOut (countInit V) t).1 0).length ∧
    (∀ n, n < (runOut (countInit V) t).1.nodes.length →
      startAt (runOut (countInit V) t).1 n + offAt (runOut (countInit V) t).1 n 0 <
        (resultsAt (runOut (countInit V) t).1 0).length →
      (next (runOut (countInit V) t).1 n).2.prodState =
        (runOut (countInit V) t).1.prodState ∧
      resultsAt (next (runOut (countInit V) t).1 n).2 0 =
        resultsAt (runOut (countInit V) t).1 0 ∧
      ∃ a, (resultsAt (runOut (countInit V) t).1 0)[startAt (runOut (countInit V) t).1 n +
          offAt (runOut (countInit V) t).1 n 0]? = some a ∧
        (next (runOut (countInit V) t).1 n).1 = PullResult.val a) := by
  have hinv : Inv V (runOut (countInit V) t).1 := runOut_inv t _ (inv_countInit V)
  have hc : CInv V (runOut (countInit V) t).1 :=
    cinv_runOut t _ (inv_countInit V) (cinv_countInit V)
  refine ⟨hc.valSync, ?_⟩
  intro n hn hpos
  have hcache := requestAux_cached (n + 1) (runOut (countInit V) t).1 n 0 hinv hpos
  refine ⟨hcache.1, hcache.2, ?_⟩
  have hslice := hinv.slice 0 hinv.ne
  rw [hinv.rootStart, List.drop_zero] at hslice
  have hlenle : (resultsAt (runOut (countInit V) t).1 0).length ≤ V.length := by
    have hl := congrArg List.length hslice
    rw [List.length_take] at hl
    omega
  have hlt : startAt (runOut (countInit V) t).1 n + offAt (runOut (countInit V) t).1 n 0 <
      V.length := by omega
  obtain ⟨⟨a, hVa, hfst⟩, -⟩ :=
    (reqChar (i := 0) hinv hn (hinv.offsNe n hn)).1 hlt
  refine ⟨a, ?_, hfst⟩
  rw [hslice, List.getElem?_take, if_pos hpos]
  exact hVa

theorem claim2_witness :
    (1 < (runOut (countInit [1, 2]) [Op.step 0, Op.use 0]).1.nodes.length ∧
      startAt (runOut (countInit [1, 2]) [Op.step 0, Op.use 0]).1 1 +
        offAt (runOut (countInit [1, 2]) [Op.step 0, Op.use 0]).1 1 0 <
        (resultsAt (runOut (countInit [1, 2]) [Op.step 0, Op.use 0]).1 0).length) ∧
    (next (runOut (countInit [1, 2]) [Op.step 0, Op.use 0]).1 1).2.prodState =
      (runOut (countInit [1, 2]) [Op.step 0, Op.use 0]).1.prodState :=
  ⟨⟨by decide, by decide⟩,
    ((claim2_single_pull [1, 2] [Op.step 0, Op.use 0]).2 1 (by decide) (by decide)).1⟩

/-- C4 (counterexample): `rest()` does not fork at the issuing cursor's own
offset.  On `[1,2,3]`, after a grandchild cursor has advanced node 1's memo to
`[1,2]`, node 1's primary cursor still has offset `o = 0` and `history[0] = 1`
is available — yet the cursor returned by `rest()` on node 1 reads `3` on its
first step, not `history[0]`: `rest()` registers the fork at the node's memo
length, not at the issuing cursor's offset. -/
theorem claim4_counterexample :
    offAt (runOut (initWorld [1, 2, 3])
      [Op.use 0, Op.use 1, Op.step 2, Op.step 2]).1 1 0 = 0 ∧
    (resultsAt (runOut (initWorld [1, 2, 3])
      [Op.use 0, Op.use 1, Op.step 2, Op.step 2]).1 1)[0]? = some 1 ∧
    (next (rest (runOut (initWorld [1, 2, 3])
        [Op.use 0, Op.use 1, Op.step 2, Op.step 2]).1 1).1
      (rest (runOut (initWorld [1, 2, 3])
        [Op.use 0, Op.use 1, Op.step 2, Op.step 2]).1 1).2).1 = PullResult.val 3 := by
  decide

/-- C4 (amended): `rest()` semantics.  At any reachable point, `rest()` on a
valid node yields a cursor that — along any further interleaved trace, counted
by its own steps — observes exactly the values of `V` from the absolute
position `start + |memo|` of the issuing node (its history length, not the
issuing cursor's offset) onward, then exhaustion; in particular it never reads
an index below that base, however far other cursors advance the shared
history. -/
theorem claim4_rest_semantics (V : List α) (pre t : List Op) (n : Nat)
    (hn : n < (runOut (initWorld V) pre).1.nodes.length) :
    obs (rest (runOut (initWorld V) pre).1 n).1 t (rest (runOut (initWorld V) pre).1 n).2 =
      ((V.drop (startAt (runOut (initWorld V) pre).1 n +
          (resultsAt (runOut (initWorld V) pre).1 n).length)).take
        (countSteps t (rest (runOut (initWorld V) pre).1 n).2)).map PullResult.val ++
      List.replicate (countSteps t (rest (runOut (initWorld V) pre).1 n).2 -
        (V.length - (startAt (runOut (initWorld V) pre).1 n +
          (resultsAt (runOut (initWorld V) pre).1 n).length)))
        PullResult.done := by
  have hinv : Inv V (runOut (initWorld V) pre).1 := runOut_inv pre _ (initWorld_inv V)
  obtain ⟨hm, hlen, hinv', hoffP, -, -, hstartN, -, -, -⟩ :=
    rest_spec hinv (nodes_getElem?_eq_some hn)
  have hmlt : (rest (runOut (initWorld V) pre).1 n).2 <
      (rest (runOut (initWorld V) pre).1 n).1.nodes.length := by
    rw [hm, hlen]
    omega
  have hkey : ¬((runOut (initWorld V) pre).1.nodes.length = n ∧
      0 = (offsetsAt (runOut (initWorld V) pre).1 n).length) := by
    intro hcon
    omega
  rw [obsChar t _ _ hinv' hmlt, hm, hstartN,
    hoffP (runOut (initWorld V) pre).1.nodes.length 0 hkey, offAt_ge le_rfl,
    Nat.add_zero]

theorem claim4_witness :
    0 < (runOut (initWorld [1, 2, 3]) [Op.step 0]).1.nodes.length ∧
    obs (rest (runOut (initWorld [1, 2, 3]) [Op.step 0]).1 0).1 [Op.step 1]
      (rest (runOut (initWorld [1, 2, 3]) [Op.step 0]).1 0).2 = [PullResult.val 2] :=
  ⟨by decide, by
    rw [claim4_rest_semantics [1, 2, 3] [Op.step 0] [Op.step 1] 0 (by decide)]
    decide⟩

/-- C6: Producer failure atomicity.  If the producer raises while a root
handle pulls at its frontier, the exception propagates synchronously as the
step's result, nothing is cached and no node of the graph — no memo list, no
descriptor — changes at all (only the producer's own state advances); in
particular a subsequent step at the same frontier invokes the producer
again. -/
theorem claim6_producer_exn {w : World α σ} {nd : NodeData α} {s' : σ}
    (hnd : w.nodes[0]? = some nd) (hsrc : nd.src = none)
    (hfront : nd.results.length = nd.offsets.getD 0 0)
    (hexn : w.prodNext w.prodState = (.exn, s')) :
    next w 0 = (.exn, { w with prodState := s' }) ∧
    (next { w with prodState := s' } 0).2.prodState = (w.prodNext s').2 := by
  constructor
  · show requestAux 1 w 0 0 = _
    simp only [requestAux, hnd, hsrc, if_pos hfront, hexn]
  · show (requestAux 1 { w with prodState := s' } 0 0).2.prodState = _
    have hnd' : ({ w with prodState := s' } : World α σ).nodes[0]? = some nd := hnd
    simp only [requestAux, hnd', hsrc, if_pos hfront]
    have hred : ({ w with prodState := s' } : World α σ).prodNext
        ({ w with prodState := s' } : World α σ).prodState = w.prodNext s' := rfl
    rw [hred]
    rcases hps : w.prodNext s' with ⟨r, s2⟩
    cases r <;> rfl

theorem claim6_witness :
    scriptNext [PullResult.exn, PullResult.exn] =
      ((PullResult.exn : PullResult Nat), [PullResult.exn]) ∧
    next (scriptInit [PullResult.exn, PullResult.exn]) 0 =
      (PullResult.exn,
        { scriptInit [PullResult.exn, PullResult.exn] with
            prodState := [(PullResult.exn : PullResult Nat)] }) :=
  ⟨rfl, (claim6_producer_exn
    (show (scriptInit [PullResult.exn, PullResult.exn] :
        World Nat (List (PullResult Nat))).nodes[0]? =
      some ⟨[], [0], none, false, 0⟩ from rfl)
    rfl rfl
    (show (scriptInit [PullResult.exn, PullResult.exn] :
        World Nat (List (PullResult Nat))).prodNext
        (scriptInit [PullResult.exn, PullResult.exn]).prodState =
      (PullResult.exn, [PullResult.exn]) from rfl)).1⟩

/-- C7: Non-empty guard.  At any reachable point, `asNonEmpty()` on the core
fails with the empty-sequence error exactly when the wrapped sequence is
empty (the probe step of a fresh full cursor is immediately exhausted);
otherwise it returns a handle that — along any further interleaved trace,
counted by its own steps — replays the full sequence exactly as a `use()`
cursor does. -/
theorem claim7_asNonEmpty (V : List α) (pre t : List Op) :
    (V = [] → (asNonEmpty (runOut (initWorld V) pre).1 0).2 = NEOut.emptyError) ∧
    (V ≠ [] → ∃ m, (asNonEmpty (runOut (initWorld V) pre).1 0).2 = NEOut.ok m ∧
      obs (asNonEmpty (runOut (initWorld V) pre).1 0).1 t m =
        ((V.take (countSteps t m)).map PullResult.val) ++
        List.replicate (countSteps t m - V.length) PullResult.done) := by
  set w := (runOut (initWorld V) pre).1 with hw
  have hinv : Inv V w := runOut_inv pre _ (initWorld_inv V)
  have h0 : 0 < w.nodes.length := hinv.ne
  obtain ⟨hm1, hlen1, hinvU, hoffP, -, hstartN, -, -, -, -⟩ :=
    use_spec hinv (nodes_getElem?_eq_some h0)
  have hm1lt : (use w 0).2 < (use w 0).1.nodes.length := by
    rw [hm1, hlen1]
    omega
  have hpos0 : startAt (use w 0).1 (use w 0).2 + offAt (use w 0).1 (use w 0).2 0 = 0 := by
    rw [hm1, hstartN, hinv.rootStart, hoffP w.nodes.length 0, offAt_ge le_rfl]
  have hpost := reqChar (i := 0) hinvU hm1lt (hinvU.offsNe _ hm1lt)
  constructor
  · intro hVnil
    have hge : V.length ≤ startAt (use w 0).1 (use w 0).2 +
        offAt (use w 0).1 (use w 0).2 0 := by
      subst hVnil
      simp
    obtain ⟨hfst, -, -, -⟩ := hpost.2 hge
    have hfstN : (next (use w 0).1 (use w 0).2).1 = PullResult.done := hfst
    show (asNonEmpty w 0).2 = NEOut.emptyError
    simp only [asNonEmpty]
    rw [hfstN]
  · intro hVne
    have hlt : startAt (use w 0).1 (use w 0).2 + offAt (use w 0).1 (use w 0).2 0 <
        V.length := by
      rw [hpos0]
      exact List.length_pos.mpr hVne
    obtain ⟨⟨a, hVa, hfst⟩, -, -, -, -⟩ := hpost.1 hlt
    have hfstN : (next (use w 0).1 (use w 0).2).1 = PullResult.val a := hfst
    have hinv2 : Inv V (next (use w 0).1 (use w 0).2).2 := next_inv hinvU (use w 0).2
    set w2 := (next (use w 0).1 (use w 0).2).2 with hw2
    have h02 : 0 < w2.nodes.length := hinv2.ne
    obtain ⟨hm2, hlen2, hinv2u, hoffP2, -, hstartN2, -, -, -, -⟩ :=
      use_spec hinv2 (nodes_getElem?_eq_some h02)
    have hm2lt : (use w2 0).2 < (use w2 0).1.nodes.length := by
      rw [hm2, hlen2]
      omega
    refine ⟨(use w2 0).2, ?_, ?_⟩
    · show (asNonEmpty w 0).2 = _
      simp only [asNonEmpty]
      rw [hfstN]
    · have hasm : (asNonEmpty w 0).1 = (use w2 0).1 := by
        simp only [asNonEmpty]
        rw [hfstN]
      rw [hasm, obsChar t (use w2 0).1 (use w2 0).2 hinv2u hm2lt, hm2, hstartN2,
        hinv2.rootStart, hoffP2 w2.nodes.length 0, offAt_ge le_rfl]
      simp

theorem claim7_witness :
    (([5] : List Nat) ≠ []) ∧
    (∃ m, (asNonEmpty (initWorld ([5] : List Nat)) 0).2 = NEOut.ok m ∧
      obs (asNonEmpty (initWorld ([5] : List Nat)) 0).1 [Op.step 2] m =
        (([5].take (countSteps [Op.step 2] m)).map PullResult.val) ++
        List.replicate (countSteps [Op.step 2] m - [5].length) PullResult.done) :=
  ⟨by decide, (claim7_asNonEmpty [5] [] [Op.step 2]).2 (by decide)⟩

/-- C8 (counterexample): `asNonEmpty()` does not call `use()` exactly once on
its receiver — it calls it twice (once for the probe cursor, once for the
returned handle): on a freshly wrapped `[1]` it leaves the root arena with
three registered cursor slots, while a single `use()` (as performed by `map`)
leaves two. -/
theorem claim8_counterexample :
    (offsetsAt (asNonEmpty (initWorld [1]) 0).1 0).length = 3 ∧
    (offsetsAt (use (initWorld [1]) 0).1 0).length = 2 ∧
    (offsetsAt (mapGen (initWorld [1]) 0 (fun a => a)).prodState.inner 0).length = 2 := by
  decide

/-- C8 (amended): combinator frame contract.  `map` wraps exactly the
`use()`-derived world of its receiver (one fresh cursor slot); a `use()` call
registers exactly one fresh slot, moves no existing cursor and no memo; and
after the derived cursor is driven arbitrarily far — any trace that never
steps the receiver's own handle, including fully draining the derived
handle — the receiver's next step returns exactly what it would have returned
before. -/
theorem claim8_frame {β : Type} (V : List α) (pre t : List Op) (n : Nat) (g : α → β)
    (hn : n < (runOut (initWorld V) pre).1.nodes.length)
    (ht : ∀ op ∈ t, op ≠ Op.step n) :
    (mapGen (runOut (initWorld V) pre).1 n g).prodState.inner =
      (use (runOut (initWorld V) pre).1 n).1 ∧
    (offsetsAt (use (runOut (initWorld V) pre).1 n).1 n).length =
      (offsetsAt (runOut (initWorld V) pre).1 n).length + 1 ∧
    (∀ j, offAt (use (runOut (initWorld V) pre).1 n).1 n j =
      offAt (runOut (initWorld V) pre).1 n j) ∧
    (∀ m, resultsAt (use (runOut (initWorld V) pre).1 n).1 m =
      resultsAt (runOut (initWorld V) pre).1 m) ∧
    (next (runOut (use (runOut (initWorld V) pre).1 n).1 t).1 n).1 =
      (next (runOut (initWorld V) pre).1 n).1 := by
  set w := (runOut (initWorld V) pre).1 with hw
  have hinv : Inv V w := runOut_inv pre _ (initWorld_inv V)
  obtain ⟨hm, hlen, hinv', hoffP, hstartP, -, hresP, -, -, harena⟩ :=
    use_spec hinv (nodes_getElem?_eq_some hn)
  refine ⟨rfl, harena, fun j => hoffP n j, hresP, ?_⟩
  obtain ⟨hn2, hstart2, hoff2⟩ := runOut_frame t (use w n).1 n hinv' (by omega) ht
  have hinvF : Inv V (runOut (use w n).1 t).1 := runOut_inv t _ hinv'
  refine next_fst_eq hinv hinvF hn hn2 ?_ ?_
  · rw [hstart2, hstartP n (by omega)]
  · rw [hoff2, hoffP n 0]

theorem claim8_witness :
    (0 < (initWorld [1, 2]).nodes.length ∧
      ∀ op ∈ [Op.step 1, Op.step 1, Op.step 1], op ≠ Op.step 0) ∧
    (next (runOut (use (initWorld [1, 2]) 0).1 [Op.step 1, Op.step 1, Op.step 1]).1 0).1 =
      (next (initWorld [1, 2]) 0).1 :=
  ⟨⟨by decide, by decide⟩,
    (claim8_frame [1, 2] [] [Op.step 1, Op.step 1, Op.step 1] 0 (fun a => a)
      (by decide) (by decide)).2.2.2.2⟩

/-- C10: `scanWith` exact outputs.  At any reachable point, the instance
returned by `scanWith f init` on the core — its handle driven along any
interleaved trace and counted by its own steps — observes exactly the running
accumulations `[f init v1, f (f init v1) v2, …]` of the wrapped sequence, then
exhaustion: it never yields `init` itself, and on the empty sequence it yields
nothing at all. -/
theorem claim10_scanWith {R : Type} (V : List α) (f : R → α → R) (init : R)
    (pre t : List Op) :
    obs (scanWith (runOut (initWorld V) pre).1 0 f init) t 0 =
      ((scanAccs f init V).take (countSteps t 0)).map PullResult.val ++
      List.replicate (countSteps t 0 - (scanAccs f init V).length) PullResult.done := by
  set w := (runOut (initWorld V) pre).1 with hw
  have hinv : Inv V w := runOut_inv pre _ (initWorld_inv V)
  have h0 : 0 < w.nodes.length := hinv.ne
  obtain ⟨hm, hlen, hinv', hoffP, -, hstartN, -, -, -, -⟩ :=
    use_spec hinv (nodes_getElem?_eq_some h0)
  have hmlt : (use w 0).2 < (use w 0).1.nodes.length := by
    rw [hm, hlen]
    omega
  have hcur := cursorProduces hinv' hmlt
  have hpos0 : startAt (use w 0).1 (use w 0).2 + offAt (use w 0).1 (use w 0).2 0 = 0 := by
    rw [hm, hstartN, hinv.rootStart, hoffP w.nodes.length 0, offAt_ge le_rfl]
  rw [hpos0, List.drop_zero] at hcur
  have hP : Produces (scanNext f) ⟨init, (use w 0).1, (use w 0).2, false⟩
      (scanAccs f init V) := scanNext_produces V init (use w 0).1 (use w 0).2 hcur
  have hIW : Inv (scanAccs f init V) (scanWith w 0 f init) := rootWorld_inv hP
  have hs0 : startAt (scanWith w 0 f init) 0 + offAt (scanWith w 0 f init) 0 0 = 0 := rfl
  rw [obsChar t (scanWith w 0 f init) 0 hIW hIW.ne, hs0]
  simp

end ReusableGen
